import Mathlib

/-
Verification of the firestore2csv exporter (Go).

The development shallowly embeds the program's pure core:
  - `formatValue` / `convertForJSON` (src/main.go, src/unnamed/part_001):
    the value normalizer turning one Firestore field value into one CSV cell;
  - the schema/row construction inside `exportCollection`;
  - the per-collection outcome aggregation inside `run` / `main`.

External library calls are modelled by their documented behaviour:
  - `strconv.FormatInt(v, 10)` - decimal integer text;
  - `time.Time.Format(time.RFC3339Nano)` - RFC 3339 with the fractional
    second printed from the ".999999999" layout (trailing zeros trimmed,
    the dot dropped when the fraction is zero), "Z" for UTC;
  - `encoding/json.Marshal` - compact JSON, object keys sorted in ascending
    lexicographic order, strings escaped (quote, backslash, control
    characters, the HTML characters, U+2028/U+2029);
  - `base64.StdEncoding.EncodeToString` - standard Base64 with padding.

Go's `float64` formatting (`strconv.FormatFloat(v, 'f', -1, 64)` and the
`encoding/json` float encoder) is kept as a parameter of the embedding: the
float leaf type `F` and the two formatters are abstract, because IEEE-754
shortest-round-trip printing is outside the scope of this embedding.
-/

namespace F2C

/-! ### Decimal digits (models `strconv.FormatInt`/`Itoa` output) -/

/-- Fuel-indexed digit printer; any fuel above `n` yields the digits of `n`.
The explicit fuel keeps the definition structurally recursive. -/
def natDigitsGo : Nat → Nat → List Char
  | 0, _ => []
  | fuel + 1, n =>
    if n < 10 then [Nat.digitChar n]
    else natDigitsGo fuel (n / 10) ++ [Nat.digitChar (n % 10)]

/-- Decimal digit characters of `n`, most significant first. -/
def natDigits (n : Nat) : List Char := natDigitsGo (n + 1) n

/-- Numeric value of a list of decimal digit characters, most significant first. -/
def digitsToNat (ds : List Char) : Nat :=
  ds.foldl (fun a c => a * 10 + (c.toNat - 48)) 0

/-- Decimal text of a 64-bit signed integer (models `strconv.FormatInt(v, 10)`). -/
def formatInt (i : Int) : List Char :=
  if i < 0 then '-' :: natDigits i.natAbs else natDigits i.natAbs

/-! ### Timestamp formatting (models `time.Time.Format(time.RFC3339Nano)`)

A Firestore timestamp comes back as a UTC `time.Time`; the `RFC3339Nano`
layout `"2006-01-02T15:04:05.999999999Z07:00"` zero-pads the calendar
fields, prints the fractional second from the `.999999999` verb (trailing
zeros trimmed, the whole field including the dot dropped when the
nanosecond value is zero), and prints `Z` for the UTC zone. -/

/-- Left-pad the decimal digits of `n` with zeros to width `w`. -/
def padNat (w n : Nat) : List Char :=
  List.replicate (w - (natDigits n).length) '0' ++ natDigits n

/-- Drop trailing `'0'` characters. -/
def trimTrailingZeros (ds : List Char) : List Char :=
  (ds.reverse.dropWhile (fun c => c == '0')).reverse

/-- Fractional-second text produced by the `.999999999` layout verb for a
nanosecond value `n`: nine zero-padded digits with trailing zeros trimmed,
preceded by a dot; nothing at all when every digit is zero. -/
def nanoFrac (n : Nat) : List Char :=
  let ds := trimTrailingZeros (padNat 9 n)
  if ds.isEmpty then [] else '.' :: ds

/-- A UTC instant already decomposed into calendar fields, as
`time.Time.Format` reads them before printing. -/
structure GoTime where
  year : Nat
  month : Nat
  day : Nat
  hour : Nat
  minute : Nat
  second : Nat
  nanos : Nat
deriving DecidableEq, Repr

/-- Models `t.Format(time.RFC3339Nano)` for a UTC `time.Time`. -/
def formatRFC3339Nano (t : GoTime) : List Char :=
  padNat 4 t.year ++ '-' :: padNat 2 t.month ++ '-' :: padNat 2 t.day ++
    'T' :: padNat 2 t.hour ++ ':' :: padNat 2 t.minute ++ ':' :: padNat 2 t.second ++
    nanoFrac t.nanos ++ ['Z']

/-- Standard Base64 alphabet character for a 6-bit value. -/
def b64Char (n : Nat) : Char :=
  "ABCDEFGHIJKLMNOPQRSTUVWXYZabcdefghijklmnopqrstuvwxyz0123456789+/".data.getD n 'A'

/-- Standard Base64 with `=` padding over a byte list (each entry < 256). -/
def base64Encode : List Nat → List Char
  | [] => []
  | [b0] => [b64Char (b0 / 4), b64Char (b0 % 4 * 16), '=', '=']
  | [b0, b1] => [b64Char (b0 / 4), b64Char (b0 % 4 * 16 + b1 / 16),
      b64Char (b1 % 16 * 4), '=']
  | b0 :: b1 :: b2 :: rest =>
      b64Char (b0 / 4) :: b64Char (b0 % 4 * 16 + b1 / 16) ::
        b64Char (b1 % 16 * 4 + b2 / 64) :: b64Char (b2 % 64) :: base64Encode rest

/-! ### JSON text (models `encoding/json.Marshal`)

`json.Marshal` emits compact JSON: no whitespace, map keys sorted in
ascending lexicographic order, strings escaped with `\"` `\\` `\n` `\r`
`\t`, `\u00XX` for other control characters and for the HTML characters
`<` `>` `&` (HTML escaping is on by default), and ` `/` `. -/

/-- Lower-case hexadecimal digit for a value < 16. -/
def hexDigitLower (n : Nat) : Char :=
  "0123456789abcdef".data.getD n '0'

/-- A `\uXXXX` JSON escape for a code point < 0x10000. -/
def uEscape (n : Nat) : List Char :=
  ['\\', 'u', hexDigitLower (n / 4096 % 16), hexDigitLower (n / 256 % 16),
    hexDigitLower (n / 16 % 16), hexDigitLower (n % 16)]

/-- JSON escaping of one character, as Go's `encoding/json` string encoder
with default HTML escaping does it. -/
def escapeChar (c : Char) : List Char :=
  if c = '"' then ['\\', '"']
  else if c = '\\' then ['\\', '\\']
  else if c = '\n' then ['\\', 'n']
  else if c = '\r' then ['\\', 'r']
  else if c = '\t' then ['\\', 't']
  else if c = '<' ∨ c = '>' ∨ c = '&' then uEscape c.toNat
  else if c.toNat < 32 then uEscape c.toNat
  else if c.toNat = 8232 ∨ c.toNat = 8233 then uEscape c.toNat
  else [c]

/-- JSON escaping of a character sequence. -/
def escapeStr : List Char → List Char
  | [] => []
  | c :: cs => escapeChar c ++ escapeStr cs

/-- JSON text as produced by `json.Marshal`: a tree whose number leaves
carry the exact token text the library printed for them. -/
inductive PJson where
  | null
  | bool (b : Bool)
  | num (t : String)
  | str (s : String)
  | arr (xs : List PJson)
  | obj (kvs : List (String × PJson))

/-- Byte-wise lexicographic comparison of character sequences.  Comparing
Unicode code points point-by-point orders UTF-8 text exactly as Go's
byte-wise string comparison does, because UTF-8 preserves code-point
order. -/
def lexLe : List Char → List Char → Bool
  | [], _ => true
  | _ :: _, [] => false
  | a :: as, b :: bs =>
    if a.toNat < b.toNat then true
    else if b.toNat < a.toNat then false
    else lexLe as bs

/-- Go's string comparison (`s1 <= s2`), byte-wise lexicographic. -/
def strLe (a b : String) : Bool := lexLe a.data b.data

/-- Ascending sort of a string list (models `sort.Strings`). -/
def sortStrings (l : List String) : List String :=
  List.insertionSort (fun a b => strLe a b = true) l

/-- Sort an association list by key, ascending (`json.Marshal` sorts the
keys of a Go map before writing the object). -/
def sortByKey {β : Type} (l : List (String × β)) : List (String × β) :=
  List.insertionSort (fun p q => strLe p.1 q.1 = true) l

instance : IsTotal String (fun a b => strLe a b = true) := by
  constructor
  have key : ∀ as bs, lexLe as bs = true ∨ lexLe bs as = true := by
    intro as
    induction as with
    | nil => intro bs; left; rfl
    | cons a as ih =>
      intro bs
      rcases bs with _ | ⟨b, bs⟩
      · right; rfl
      · simp only [lexLe]
        rcases Nat.lt_trichotomy a.toNat b.toNat with h | h | h
        · left; simp [h]
        · have h2 : ¬ a.toNat < b.toNat := by omega
          have h3 : ¬ b.toNat < a.toNat := by omega
          simp only [h2, h3, if_false]
          exact ih bs
        · right; simp [h]
  intro a b
  exact key a.data b.data

instance : IsTrans String (fun a b => strLe a b = true) := by
  constructor
  have key : ∀ as bs cs, lexLe as bs = true → lexLe bs cs = true →
      lexLe as cs = true := by
    intro as
    induction as with
    | nil => intro bs cs _ _; rfl
    | cons a as ih =>
      intro bs cs h1 h2
      rcases bs with _ | ⟨b, bs⟩
      · simp [lexLe] at h1
      · rcases cs with _ | ⟨c, cs⟩
        · simp [lexLe] at h2
        · simp only [lexLe] at h1 h2 ⊢
          by_cases hab : a.toNat < b.toNat
          · by_cases hbc : b.toNat < c.toNat
            · simp [show a.toNat < c.toNat by omega]
            · by_cases hcb : c.toNat < b.toNat
              · simp [hbc, hcb] at h2
              · simp [show a.toNat < c.toNat by omega]
          · by_cases hba : b.toNat < a.toNat
            · simp [hab, hba] at h1
            · simp only [hab, hba, if_false] at h1
              by_cases hbc : b.toNat < c.toNat
              · simp [show a.toNat < c.toNat by omega]
              · by_cases hcb : c.toNat < b.toNat
                · simp [hbc, hcb] at h2
                · simp only [hbc, hcb, if_false] at h2
                  have hac : ¬ a.toNat < c.toNat := by omega
                  have hca : ¬ c.toNat < a.toNat := by omega
                  simp only [hac, hca, if_false]
                  exact ih bs cs h1 h2
  intro a b c
  exact key a.data b.data c.data

instance : IsAntisymm String (fun a b => strLe a b = true) := by
  constructor
  have key : ∀ as bs, lexLe as bs = true → lexLe bs as = true → as = bs := by
    intro as
    induction as with
    | nil =>
      intro bs h1 h2
      rcases bs with _ | ⟨b, bs⟩
      · rfl
      · simp [lexLe] at h2
    | cons a as ih =>
      intro bs h1 h2
      rcases bs with _ | ⟨b, bs⟩
      · simp [lexLe] at h1
      · simp only [lexLe] at h1 h2
        by_cases hab : a.toNat < b.toNat
        · simp [hab, show ¬ b.toNat < a.toNat by omega] at h2
        · by_cases hba : b.toNat < a.toNat
          · simp [hab, hba] at h1
          · simp only [hab, hba, if_false] at h1 h2
            have hn : a.toNat = b.toNat := by omega
            have hc : a = b := Char.ext (UInt32.ext hn)
            rw [hc, ih bs h1 h2]
  intro a b h1 h2
  rcases a with ⟨as⟩
  rcases b with ⟨bs⟩
  exact congrArg String.mk (key as bs h1 h2)

instance {β : Type} : IsTotal (String × β) (fun p q => strLe p.1 q.1 = true) :=
  ⟨fun p q => IsTotal.total (r := fun a b : String => strLe a b = true) p.1 q.1⟩

instance {β : Type} : IsTrans (String × β) (fun p q => strLe p.1 q.1 = true) :=
  ⟨fun p q w h1 h2 =>
    IsTrans.trans (r := fun a b : String => strLe a b = true) p.1 q.1 w.1 h1 h2⟩

mutual

/-- Compact JSON serialization of a `PJson` tree. -/
def serialize : PJson → List Char
  | .null => "null".data
  | .bool true => "true".data
  | .bool false => "false".data
  | .num t => t.data
  | .str s => '"' :: escapeStr s.data ++ ['"']
  | .arr xs => '[' :: serializeElems xs
  | .obj kvs => '\x7b' :: serializeMembers kvs

/-- Comma-separated array elements followed by the closing bracket. -/
def serializeElems : List PJson → List Char
  | [] => [']']
  | [x] => serialize x ++ [']']
  | x :: y :: ys => serialize x ++ ',' :: serializeElems (y :: ys)

/-- Comma-separated object members followed by the closing brace. -/
def serializeMembers : List (String × PJson) → List Char
  | [] => ['\x7d']
  | [(k, v)] => '"' :: escapeStr k.data ++ '"' :: ':' :: serialize v ++ ['\x7d']
  | (k, v) :: m :: ms =>
      '"' :: escapeStr k.data ++ '"' :: ':' :: serialize v ++ ',' :: serializeMembers (m :: ms)

end

/-! ### A JSON parser (the "standard JSON parser" of the validity claim)

A recursive-descent parser for the compact JSON this tool writes (RFC 8259
grammar without inter-token whitespace, which `json.Marshal` never emits).
Number tokens are kept as text.  The fuel argument only bounds nesting;
any fuel above the nesting need of the input behaves identically. -/

/-- Value of one hexadecimal digit, either case. -/
def hexVal (c : Char) : Option Nat :=
  if 48 ≤ c.toNat ∧ c.toNat ≤ 57 then some (c.toNat - 48)
  else if 97 ≤ c.toNat ∧ c.toNat ≤ 102 then some (c.toNat - 87)
  else if 65 ≤ c.toNat ∧ c.toNat ≤ 70 then some (c.toNat - 55)
  else none

/-- The single-character JSON escapes. -/
def simpleEsc (c : Char) : Option Char :=
  if c = '"' then some '"'
  else if c = '\\' then some '\\'
  else if c = '/' then some '/'
  else if c = 'n' then some '\n'
  else if c = 'r' then some '\r'
  else if c = 't' then some '\t'
  else if c = 'b' then some (Char.ofNat 8)
  else if c = 'f' then some (Char.ofNat 12)
  else none

/-- Scan a JSON string body up to the closing quote, decoding escapes;
returns the decoded characters and the input following the quote. -/
def parseStrChars : List Char → Option (List Char × List Char)
  | [] => none
  | '"' :: rest => some ([], rest)
  | '\\' :: 'u' :: h1 :: h2 :: h3 :: h4 :: rest =>
    match hexVal h1, hexVal h2, hexVal h3, hexVal h4 with
    | some a, some b, some c, some d =>
      match parseStrChars rest with
      | some (s, r) => some (Char.ofNat (4096 * a + 256 * b + 16 * c + d) :: s, r)
      | none => none
    | _, _, _, _ => none
  | '\\' :: e :: rest =>
    match simpleEsc e with
    | some c =>
      match parseStrChars rest with
      | some (s, r) => some (c :: s, r)
      | none => none
    | none => none
  | c :: rest =>
    match parseStrChars rest with
    | some (s, r) => some (c :: s, r)
    | none => none

/-- Characters that may occur in a JSON number token. -/
def numChar (c : Char) : Bool :=
  c.isDigit || c = '-' || c = '+' || c = '.' || c = 'e' || c = 'E'

/-- Characters that may start a JSON number token. -/
def numStart (c : Char) : Bool :=
  c.isDigit || c = '-'

/-- A plausible JSON number token: non-empty, starts with a digit or a
minus sign, built from number characters only. -/
def numTokOK (t : String) : Bool :=
  match t.data with
  | [] => false
  | c :: _ => numStart c && t.data.all numChar

mutual

/-- Parse one JSON value. -/
def parseV : Nat → List Char → Option (PJson × List Char)
  | 0, _ => none
  | _ + 1, [] => none
  | fuel + 1, c :: rest =>
    if c = 'n' then
      if rest.take 3 = ['u', 'l', 'l'] then some (.null, rest.drop 3) else none
    else if c = 't' then
      if rest.take 3 = ['r', 'u', 'e'] then some (.bool true, rest.drop 3) else none
    else if c = 'f' then
      if rest.take 4 = ['a', 'l', 's', 'e'] then some (.bool false, rest.drop 4)
      else none
    else if c = '"' then
      match parseStrChars rest with
      | some (s, r) => some (.str ⟨s⟩, r)
      | none => none
    else if c = '[' then
      if rest.take 1 = [']'] then some (.arr [], rest.drop 1)
      else
        match parseElems fuel rest with
        | some (vs, r) => some (.arr vs, r)
        | none => none
    else if c = '\x7b' then
      if rest.take 1 = ['\x7d'] then some (.obj [], rest.drop 1)
      else
        match parseMembers fuel rest with
        | some (ms, r) => some (.obj ms, r)
        | none => none
    else if numStart c then
      some (.num ⟨c :: rest.takeWhile numChar⟩, rest.dropWhile numChar)
    else none

/-- Parse one or more comma-separated array elements up to `]`. -/
def parseElems : Nat → List Char → Option (List PJson × List Char)
  | 0, _ => none
  | fuel + 1, cs =>
    match parseV fuel cs with
    | none => none
    | some (v, r) =>
      match r with
      | ',' :: r2 =>
        match parseElems fuel r2 with
        | some (vs, r3) => some (v :: vs, r3)
        | none => none
      | ']' :: r2 => some ([v], r2)
      | _ => none

/-- Parse one or more comma-separated object members up to the closing
brace. -/
def parseMembers : Nat → List Char → Option (List (String × PJson) × List Char)
  | 0, _ => none
  | fuel + 1, cs =>
    match cs with
    | '"' :: cs2 =>
      match parseStrChars cs2 with
      | none => none
      | some (kcs, r) =>
        match r with
        | ':' :: r2 =>
          match parseV fuel r2 with
          | none => none
          | some (v, r3) =>
            match r3 with
            | ',' :: r4 =>
              match parseMembers fuel r4 with
              | some (ms, r5) => some ((⟨kcs⟩, v) :: ms, r5)
              | none => none
            | '\x7d' :: r4 => some ([(⟨kcs⟩, v)], r4)
            | _ => none
        | _ => none
    | _ => none

end

/-- Parse a complete JSON document: one value consuming the whole input. -/
def parseJson (s : String) : Option PJson :=
  match parseV (s.data.length + 1) s.data with
  | some (j, []) => some j
  | _ => none

mutual

/-- Nesting fuel needed by `parseV` for a value. -/
def needV : PJson → Nat
  | .arr xs => 1 + needL xs
  | .obj kvs => 1 + needM kvs
  | _ => 1

/-- Nesting fuel needed by `parseElems` for an element list. -/
def needL : List PJson → Nat
  | [] => 1
  | x :: xs => 1 + max (needV x) (needL xs)

/-- Nesting fuel needed by `parseMembers` for a member list. -/
def needM : List (String × PJson) → Nat
  | [] => 1
  | kv :: ms => 1 + max (needV kv.2) (needM ms)

end

/-- The input that may legally follow a serialized value: empty, or a
character that cannot extend a number token (so that greedy number
scanning stops exactly at the value boundary). -/
def NumBoundary : List Char → Prop
  | [] => True
  | d :: _ => numChar d = false

/-- Every number token in the tree is a plausible JSON number token. -/
inductive NumsOK : PJson → Prop where
  | null : NumsOK .null
  | bool (b : Bool) : NumsOK (.bool b)
  | num {t : String} : numTokOK t = true → NumsOK (.num t)
  | str (s : String) : NumsOK (.str s)
  | arr {xs : List PJson} : (∀ x ∈ xs, NumsOK x) → NumsOK (.arr xs)
  | obj {kvs : List (String × PJson)} : (∀ kv ∈ kvs, NumsOK kv.2) →
      NumsOK (.obj kvs)

mutual

/-- Structural equivalence of JSON trees modulo object key ordering: an
object's members may be reordered by a permutation, everything else must
match pointwise. -/
inductive PEquiv : PJson → PJson → Prop where
  | null : PEquiv .null .null
  | bool (b : Bool) : PEquiv (.bool b) (.bool b)
  | num (t : String) : PEquiv (.num t) (.num t)
  | str (s : String) : PEquiv (.str s) (.str s)
  | arr {xs ys : List PJson} : PEquivList xs ys → PEquiv (.arr xs) (.arr ys)
  | obj {kvs1 kvs2 kvs3 : List (String × PJson)} : kvs1.Perm kvs2 →
      PEquivMembers kvs2 kvs3 → PEquiv (.obj kvs1) (.obj kvs3)

/-- Pointwise `PEquiv` on element lists. -/
inductive PEquivList : List PJson → List PJson → Prop where
  | nil : PEquivList [] []
  | cons {x y : PJson} {xs ys : List PJson} : PEquiv x y → PEquivList xs ys →
      PEquivList (x :: xs) (y :: ys)

/-- Pointwise `PEquiv` on member lists with equal keys. -/
inductive PEquivMembers :
    List (String × PJson) → List (String × PJson) → Prop where
  | nil : PEquivMembers [] []
  | cons {k : String} {v w : PJson} {ms ns : List (String × PJson)} :
      PEquiv v w → PEquivMembers ms ns →
      PEquivMembers ((k, v) :: ms) ((k, w) :: ns)

end

/-! ### The document value model and the normalizer

`DocValue` is the closed sum of every value shape the Firestore client
hands to `formatValue` (src/main.go:188, src/unnamed/part_001:373): Go's
`nil`, `bool`, `int64`, `float64`, `string`, `time.Time`, `*latlng.LatLng`,
`[]byte`, `*firestore.DocumentRef`, `[]any` and `map[string]any`.  A Go map
has no intrinsic order; the association list records the iteration order
the program happened to see, and well-formed values have distinct keys. -/

inductive DocValue (F : Type) where
  | null
  | bool (b : Bool)
  | int (i : Int)
  | float (f : F)
  | text (s : String)
  | timestamp (t : GoTime)
  | geo (lat lng : F)
  | bytes (bs : List Nat)
  | ref (path : String)
  | array (xs : List (DocValue F))
  | map (kvs : List (String × DocValue F))

/-- The JSON-serializable plain form built by `convertForJSON`
(src/main.go:226-258): Go `nil`/`bool`/`int64`/`float64`/`string` pass
through, the other leaves become strings or a lat/lng object, and
arrays/maps recurse. -/
inductive Plain (F : Type) where
  | null
  | bool (b : Bool)
  | int (i : Int)
  | float (f : F)
  | str (s : String)
  | arr (xs : List (Plain F))
  | obj (kvs : List (String × Plain F))

/-- Embeds `convertForJSON` (src/main.go:226-258). -/
def convertForJSON {F : Type} : DocValue F → Plain F
  | .null => .null
  | .bool b => .bool b
  | .int i => .int i
  | .float f => .float f
  | .text s => .str s
  | .timestamp t => .str ⟨formatRFC3339Nano t⟩
  | .geo la ln => .obj [("lat", .float la), ("lng", .float ln)]
  | .bytes bs => .str ⟨base64Encode bs⟩
  | .ref p => .str p
  | .array xs => .arr (xs.attach.map (fun x => convertForJSON x.1))
  | .map kvs => .obj (kvs.attach.map (fun kv => (kv.1.1, convertForJSON kv.1.2)))
  decreasing_by
  · have h := List.sizeOf_lt_of_mem x.2
    simp only [DocValue.array.sizeOf_spec]
    omega
  · have h := List.sizeOf_lt_of_mem kv.2
    rcases kv with ⟨⟨k, v⟩, hkv⟩
    simp only [DocValue.map.sizeOf_spec, Prod.mk.sizeOf_spec] at h ⊢
    omega

/-- What `json.Marshal` makes of a plain value: integers and floats become
number tokens (`fmtJ` stands for the library's float encoder), and the
members of every object are sorted by key. -/
def toPJson {F : Type} (fmtJ : F → String) : Plain F → PJson
  | .null => .null
  | .bool b => .bool b
  | .int i => .num ⟨formatInt i⟩
  | .float f => .num (fmtJ f)
  | .str s => .str s
  | .arr xs => .arr (xs.attach.map (fun x => toPJson fmtJ x.1))
  | .obj kvs => .obj (sortByKey (kvs.attach.map (fun kv => (kv.1.1, toPJson fmtJ kv.1.2))))
  decreasing_by
  · have h := List.sizeOf_lt_of_mem x.2
    simp only [Plain.arr.sizeOf_spec]
    omega
  · have h := List.sizeOf_lt_of_mem kv.2
    rcases kv with ⟨⟨k, v⟩, hkv⟩
    simp only [Plain.obj.sizeOf_spec, Prod.mk.sizeOf_spec] at h ⊢
    omega

/-- The JSON tree of a plain value with object members kept in their
received order — the identity embedding of the plain form into JSON trees,
used to state structural equivalence modulo key ordering. -/
def plainTree {F : Type} (fmtJ : F → String) : Plain F → PJson
  | .null => .null
  | .bool b => .bool b
  | .int i => .num ⟨formatInt i⟩
  | .float f => .num (fmtJ f)
  | .str s => .str s
  | .arr xs => .arr (xs.attach.map (fun x => plainTree fmtJ x.1))
  | .obj kvs => .obj (kvs.attach.map (fun kv => (kv.1.1, plainTree fmtJ kv.1.2)))
  decreasing_by
  · have h := List.sizeOf_lt_of_mem x.2
    simp only [Plain.arr.sizeOf_spec]
    omega
  · have h := List.sizeOf_lt_of_mem kv.2
    rcases kv with ⟨⟨k, v⟩, hkv⟩
    simp only [Plain.obj.sizeOf_spec, Prod.mk.sizeOf_spec] at h ⊢
    omega

/-- The text `json.Marshal` produces for a plain value when it succeeds
(every float encodable); `marshalGo` below keeps the error path of the
ignored-error call sites. -/
def marshalPlain {F : Type} (fmtJ : F → String) (p : Plain F) : String :=
  ⟨serialize (toPJson fmtJ p)⟩

/-- The JSON tree `json.Marshal` builds for one document value: conversion
to the plain form followed by the number/key-order normalization. -/
def marshalTree {F : Type} (fmtJ : F → String) (v : DocValue F) : PJson :=
  toPJson fmtJ (convertForJSON v)

/-- Embeds `formatValue` (src/main.go:188-224): one CSV cell per value.
`fmtF` stands for `strconv.FormatFloat(val, 'f', -1, 64)` and `fmtJ` for
the `encoding/json` float encoder, both external library routines; this
version models the `json.Marshal` success path (`formatValueGo` below
keeps the library's error on non-finite floats). -/
def formatValue {F : Type} (fmtF fmtJ : F → String) : DocValue F → String
  | .null => ""
  | .bool true => "true"
  | .bool false => "false"
  | .int i => ⟨formatInt i⟩
  | .float f => fmtF f
  | .text s => s
  | .timestamp t => ⟨formatRFC3339Nano t⟩
  | .geo la ln => marshalPlain fmtJ (.obj [("lat", .float la), ("lng", .float ln)])
  | .bytes bs => ⟨base64Encode bs⟩
  | .ref p => p
  | .array xs => marshalPlain fmtJ (convertForJSON (.array xs))
  | .map kvs => marshalPlain fmtJ (convertForJSON (.map kvs))

/-- Does `json.Marshal` succeed on this plain value?  Here `fmtJ` is the
library float encoder with its failure kept: it returns `none` exactly
when `Marshal` would error on the float (a `json.UnsupportedValueError`,
raised for NaN and ±Inf float64), and `Marshal` fails iff some float leaf
of the value fails. -/
def plainFloatsOK {F : Type} (fmtJ : F → Option String) : Plain F → Bool
  | .null => true
  | .bool _ => true
  | .int _ => true
  | .float f => (fmtJ f).isSome
  | .str _ => true
  | .arr xs => (xs.attach.map (fun x => plainFloatsOK fmtJ x.1)).all (fun b => b)
  | .obj kvs =>
    (kvs.attach.map (fun kv => plainFloatsOK fmtJ kv.1.2)).all (fun b => b)
  decreasing_by
  · have h := List.sizeOf_lt_of_mem x.2
    simp only [Plain.arr.sizeOf_spec]
    omega
  · have h := List.sizeOf_lt_of_mem kv.2
    rcases kv with ⟨⟨k, v⟩, hkv⟩
    simp only [Plain.obj.sizeOf_spec, Prod.mk.sizeOf_spec] at h ⊢
    omega

/-- The cell text of the `b, _ := json.Marshal(...)` call sites
(src/main.go:216,219 and the geo arm): the compact JSON when `Marshal`
succeeds, and the empty string when it errors on a non-finite float —
the error is discarded, `b` stays nil, and `string(b)` is empty. -/
def marshalGo {F : Type} (fmtJ : F → Option String) (p : Plain F) : String :=
  if plainFloatsOK fmtJ p then marshalPlain (fun f => (fmtJ f).getD "") p
  else ""

/-- Embeds `formatValue` (src/main.go:188-224) with the `json.Marshal`
error path kept: identical to `formatValue` except that the float-to-JSON
encoder may fail (`none` models the library error on a non-finite
float64), in which case the Array/Map/GeoPoint cell is the empty
string. -/
def formatValueGo {F : Type} (fmtF : F → String) (fmtJ : F → Option String) :
    DocValue F → String
  | .null => ""
  | .bool true => "true"
  | .bool false => "false"
  | .int i => ⟨formatInt i⟩
  | .float f => fmtF f
  | .text s => s
  | .timestamp t => ⟨formatRFC3339Nano t⟩
  | .geo la ln => marshalGo fmtJ (.obj [("lat", .float la), ("lng", .float ln)])
  | .bytes bs => ⟨base64Encode bs⟩
  | .ref p => p
  | .array xs => marshalGo fmtJ (convertForJSON (.array xs))
  | .map kvs => marshalGo fmtJ (convertForJSON (.map kvs))

/-- One document as read from the store: identifier plus the field map
(`snap.Data()` is a Go `map[string]any`; the list records the iteration
order, keys are distinct). -/
structure DocRecord (F : Type) where
  id : String
  data : List (String × DocValue F)

/-- A collection's document iterator: the documents it yields, then
either a clean end (`iterator.Done`) or a transport error. -/
structure DocStream (F : Type) where
  docs : List (DocRecord F)
  failAfter : Option String

/-- Outcome record for one collection (`exportResult`,
src/unnamed/part_001:24-30); Go zero values stand for the absent fields. -/
structure ExportResult where
  collection : String
  docCount : Nat := 0
  fieldCount : Nat := 0
  filePath : String := ""
  err : Option String := none
deriving DecidableEq, Repr

/-- Draining `iter.Next()` until `iterator.Done` or an error.  When the cap
is positive the server-side `query.Limit(limit)` ends the stream after
`limit` documents, so a later transport error is never observed. -/
def drainStream {F : Type} (limit : Nat) (s : DocStream F) :
    Except String (List (DocRecord F)) :=
  if 0 < limit ∧ limit ≤ s.docs.length then .ok (s.docs.take limit)
  else
    match s.failAfter with
    | some e => .error e
    | none => .ok s.docs

/-- Insertion into the field-name set (`fieldSet[k] = struct{}{}` on a Go
`map[string]struct{}`): a no-op when the name is already present. -/
def insertField (s : List String) (k : String) : List String :=
  if k ∈ s then s else s ++ [k]

/-- The distinct field names accumulated while reading
(`for k := range data { fieldSet[k] = struct{}{} }`). -/
def collectFields {F : Type} (docs : List (DocRecord F)) : List String :=
  docs.foldl (fun s d => d.data.foldl (fun s2 kv => insertField s2 kv.1) s) []

/-- The sorted column list (`sort.Strings(fields)`). -/
def csvFields {F : Type} (docs : List (DocRecord F)) : List String :=
  sortStrings (collectFields docs)

/-- The header row: the fixed identifier column prepended to the sorted
field names (src/unnamed/part_001:283). -/
def csvHeaders {F : Type} (docs : List (DocRecord F)) : List String :=
  "__document_id__" :: csvFields docs

/-- Go's `val == nil` test on the dynamically-typed cell value. -/
def DocValue.isNull {F : Type} : DocValue F → Bool
  | .null => true
  | _ => false

/-- One cell of a row (src/unnamed/part_001:305-312): empty when the field
is absent or `nil`, otherwise the normalizer's text. -/
def renderCell {F : Type} (fmtF fmtJ : F → String) (d : DocRecord F) (h : String) : String :=
  match d.data.lookup h with
  | none => ""
  | some v => if v.isNull then "" else formatValue fmtF fmtJ v

/-- One data row: the document identifier, then one cell per sorted field. -/
def buildRow {F : Type} (fmtF fmtJ : F → String) (fields : List String)
    (d : DocRecord F) : List String :=
  d.id :: fields.map (renderCell fmtF fmtJ d)

/-- Embeds `exportCollection` (src/unnamed/part_001:230-327).  Besides the
outcome record it returns the rows written to the CSV file, or `none` when
no file was produced.  `createErr` is the outcome of `os.Create`. -/
def exportCollection {F : Type} (fmtF fmtJ : F → String) (name : String) (limit : Nat)
    (stream : DocStream F) (outputDir : String) (createErr : Option String) :
    ExportResult × Option (List (List String)) :=
  match drainStream limit stream with
  | .error e => ({ collection := name, err := some e }, none)
  | .ok docs =>
    if docs.isEmpty then ({ collection := name }, none)
    else
      let filePath := outputDir ++ "/" ++ name ++ ".csv"
      match createErr with
      | some e =>
        ({ collection := name, err := some ("creating file " ++ filePath ++ ": " ++ e) },
          none)
      | none =>
        let fields := csvFields docs
        ({ collection := name, docCount := docs.length,
           fieldCount := (collectFields docs).length, filePath := filePath, err := none },
          some (csvHeaders docs :: docs.map (buildRow fmtF fmtJ fields)))

/-- Embeds the aggregation loop of `run` (src/unnamed/part_001:177-200):
apply the per-collection exporter to every resolved name in order, then
fail overall iff some outcome carries an error.  The boolean is `true` on
overall success. -/
def runDriver (exporter : String → ExportResult) (names : List String) :
    List ExportResult × Bool :=
  let results := names.foldl (fun acc n => acc ++ [exporter n]) []
  let failed := results.foldl
    (fun acc r => if r.err.isSome then acc ++ [r.collection] else acc) []
  (results, failed.isEmpty)

/-! ### Value well-formedness and the canonical form

A Go map cannot hold the same key twice, and it has no intrinsic entry
order: two association lists denote the same `map[string]any` exactly when
one is a key-preserving permutation of the other.  `WFv` states the
distinct-keys invariant at every map node; `canon` sorts every map node by
key, so that well-formed values denote the same Go value precisely when
their canonical forms are equal. -/

/-- Distinct keys at every map node, recursively. -/
inductive WFv {F : Type} : DocValue F → Prop where
  | null : WFv .null
  | bool (b : Bool) : WFv (.bool b)
  | int (i : Int) : WFv (.int i)
  | float (f : F) : WFv (.float f)
  | text (s : String) : WFv (.text s)
  | timestamp (t : GoTime) : WFv (.timestamp t)
  | geo (la ln : F) : WFv (.geo la ln)
  | bytes (bs : List Nat) : WFv (.bytes bs)
  | ref (p : String) : WFv (.ref p)
  | array {xs : List (DocValue F)} : (∀ x ∈ xs, WFv x) → WFv (.array xs)
  | map {kvs : List (String × DocValue F)} : (kvs.map Prod.fst).Nodup →
      (∀ kv ∈ kvs, WFv kv.2) → WFv (.map kvs)

/-- Canonical form: every map node sorted by key. -/
def canon {F : Type} : DocValue F → DocValue F
  | .null => .null
  | .bool b => .bool b
  | .int i => .int i
  | .float f => .float f
  | .text s => .text s
  | .timestamp t => .timestamp t
  | .geo la ln => .geo la ln
  | .bytes bs => .bytes bs
  | .ref p => .ref p
  | .array xs => .array (xs.attach.map (fun x => canon x.1))
  | .map kvs => .map (sortByKey (kvs.attach.map (fun kv => (kv.1.1, canon kv.1.2))))
  decreasing_by
  · have h := List.sizeOf_lt_of_mem x.2
    simp only [DocValue.array.sizeOf_spec]
    omega
  · have h := List.sizeOf_lt_of_mem kv.2
    rcases kv with ⟨⟨k, v⟩, hkv⟩
    simp only [DocValue.map.sizeOf_spec, Prod.mk.sizeOf_spec] at h ⊢
    omega

/-! ### Concrete fixtures used by the witness theorems -/

/-- A trivial stand-in for the abstract float leaf type and its formatters
(the concrete examples below contain no float values). -/
def unitFmt : Unit → String := fun _ => "0"

/-- A one-value float type whose JSON encoding always succeeds, with the
number token `0`. -/
def unitFmtOpt : Unit → Option String := fun _ => some "0"

/-- The two documents of the worked example in the specification: `d1` has
only `name`, `d2` has `name` and `age`. -/
def docsEx : List (DocRecord Unit) :=
  [⟨"d1", [("name", .text "Alice")]⟩,
   ⟨"d2", [("name", .text "Bob"), ("age", .int 30)]⟩]

/-- A clean two-document stream for the worked example. -/
def streamEx : DocStream Unit := ⟨docsEx, none⟩

/-- First schema-accumulation document of the specification: fields (a). -/
def docX : DocRecord Unit := ⟨"x", [("a", .int 1)]⟩

/-- Second schema-accumulation document: fields (b). -/
def docY : DocRecord Unit := ⟨"y", [("b", .int 2)]⟩

/-- Third schema-accumulation document: fields (a, c). -/
def docZ : DocRecord Unit := ⟨"z", [("a", .int 3), ("c", .int 4)]⟩

/-- The three schema-accumulation documents of the specification. -/
def docsABC : List (DocRecord Unit) := [docX, docY, docZ]

/-! ## Theorems -/

theorem natDigitsGo_congr (f1 : Nat) : ∀ n f2, n < f1 → n < f2 →
    natDigitsGo f1 n = natDigitsGo f2 n := by
  induction f1 with
  | zero => omega
  | succ f1 ih =>
    intro n f2 h1 h2
    rcases f2 with _ | f2
    · omega
    · show natDigitsGo (f1 + 1) n = natDigitsGo (f2 + 1) n
      rw [natDigitsGo, natDigitsGo]
      by_cases hn : n < 10
      · simp [hn]
      · rw [if_neg hn, if_neg hn]
        have hd : n / 10 < n := Nat.div_lt_self (by omega) (by omega)
        rw [ih (n / 10) f2 (by omega) (by omega)]

theorem natDigits_eq (n : Nat) :
    natDigits n = if n < 10 then [Nat.digitChar n]
      else natDigits (n / 10) ++ [Nat.digitChar (n % 10)] := by
  unfold natDigits
  rw [natDigitsGo]
  by_cases hn : n < 10
  · simp [hn]
  · rw [if_neg hn, if_neg hn]
    have hd : n / 10 < n := Nat.div_lt_self (by omega) (by omega)
    rw [natDigitsGo_congr n (n / 10) (n / 10 + 1) (by omega) (by omega)]

theorem digitsToNat_append_singleton (ds : List Char) (c : Char) :
    digitsToNat (ds ++ [c]) = digitsToNat ds * 10 + (c.toNat - 48) := by
  simp [digitsToNat, List.foldl_append]

theorem digitChar_toNat_sub (n : Nat) (h : n < 10) :
    (Nat.digitChar n).toNat - 48 = n := by
  interval_cases n <;> decide

theorem digitsToNat_natDigits (n : Nat) : digitsToNat (natDigits n) = n := by
  induction n using Nat.strong_induction_on with
  | _ n ih =>
    rw [natDigits_eq]
    split
    · next h =>
      simp [digitsToNat, digitChar_toNat_sub n h]
    · next h =>
      rw [digitsToNat_append_singleton,
        ih (n / 10) (Nat.div_lt_self (by omega) (by omega)),
        digitChar_toNat_sub (n % 10) (Nat.mod_lt _ (by omega))]
      omega

theorem natDigits_ne_nil (n : Nat) : natDigits n ≠ [] := by
  rw [natDigits_eq]
  split <;> simp

theorem digitChar_isDigit (n : Nat) (h : n < 10) : (Nat.digitChar n).isDigit := by
  interval_cases n <;> decide

theorem natDigits_all_isDigit (n : Nat) : ∀ c ∈ natDigits n, c.isDigit := by
  induction n using Nat.strong_induction_on with
  | _ n ih =>
    rw [natDigits_eq]
    split
    · next h =>
      intro c hc
      simp at hc
      subst hc
      exact digitChar_isDigit n h
    · next h =>
      intro c hc
      simp at hc
      rcases hc with hc | hc
      · exact ih (n / 10) (Nat.div_lt_self (by omega) (by omega)) c hc
      · subst hc
        exact digitChar_isDigit (n % 10) (Nat.mod_lt _ (by omega))

theorem natDigits_length_le (k n : Nat) (h : n < 10 ^ k) (hk : 1 ≤ k) :
    (natDigits n).length ≤ k := by
  induction k generalizing n with
  | zero => omega
  | succ k ih =>
    rw [natDigits_eq]
    split
    · simp
    · next hn =>
      have hk1 : 1 ≤ k := by
        by_contra hc
        have hk0 : k = 0 := by omega
        subst hk0
        simp [pow_succ] at h
        omega
      have hdiv : n / 10 < 10 ^ k := by
        rw [Nat.div_lt_iff_lt_mul (by omega)]
        calc n < 10 ^ (k + 1) := h
          _ = 10 ^ k * 10 := by ring
      have := ih (n / 10) hdiv hk1
      simp only [List.length_append, List.length_cons, List.length_nil]
      omega

theorem trimTrailingZeros_spec (ds : List Char) :
    ds = trimTrailingZeros ds ++
      List.replicate (ds.length - (trimTrailingZeros ds).length) '0' := by
  unfold trimTrailingZeros
  conv_lhs => rw [← ds.reverse_reverse, ← List.takeWhile_append_dropWhile
    (p := fun c => c == '0') (l := ds.reverse)]
  rw [List.reverse_append]
  have hrep : ds.reverse.takeWhile (fun c => c == '0') =
      List.replicate (ds.reverse.takeWhile (fun c => c == '0')).length '0' := by
    apply List.eq_replicate_of_mem
    intro c hc
    have := List.mem_takeWhile_imp hc
    simpa using this
  have hlen : (ds.reverse.takeWhile (fun c => c == '0')).length =
      ds.length - ((ds.reverse.dropWhile (fun c => c == '0')).reverse).length := by
    have := List.takeWhile_append_dropWhile (p := fun c => c == '0') (l := ds.reverse)
    have hl : (ds.reverse.takeWhile (fun c => c == '0')).length +
        (ds.reverse.dropWhile (fun c => c == '0')).length = ds.length := by
      calc (ds.reverse.takeWhile (fun c => c == '0')).length +
            (ds.reverse.dropWhile (fun c => c == '0')).length
          = (ds.reverse.takeWhile (fun c => c == '0') ++
              ds.reverse.dropWhile (fun c => c == '0')).length := by
            rw [List.length_append]
        _ = ds.reverse.length := by rw [this]
        _ = ds.length := ds.length_reverse
    simp only [List.length_reverse]
    omega
  conv_lhs => rw [hrep, List.reverse_replicate, hlen]

theorem trimTrailingZeros_getLast_ne_zero (ds : List Char) :
    (trimTrailingZeros ds).getLast? ≠ some '0' := by
  unfold trimTrailingZeros
  rw [List.getLast?_reverse]
  intro h
  rcases hd : ds.reverse.dropWhile (fun c => c == '0') with _ | ⟨c, cs⟩
  · rw [hd] at h
    simp at h
  · rw [hd] at h
    simp at h
    subst h
    have := List.head?_dropWhile_not (p := fun c => c == '0') (l := ds.reverse)
    rw [hd] at this
    simp at this

theorem trimTrailingZeros_length_le (ds : List Char) :
    (trimTrailingZeros ds).length ≤ ds.length := by
  unfold trimTrailingZeros
  simp only [List.length_reverse]
  calc (ds.reverse.dropWhile (fun c => c == '0')).length
      ≤ ds.reverse.length :=
        (List.dropWhile_sublist (fun c => c == '0')).length_le
    _ = ds.length := ds.length_reverse

theorem digitsToNat_replicate_zero_append (k : Nat) (ds : List Char) :
    digitsToNat (List.replicate k '0' ++ ds) = digitsToNat ds := by
  induction k with
  | zero => simp
  | succ k ih =>
    have : List.replicate (k + 1) '0' ++ ds = '0' :: (List.replicate k '0' ++ ds) := by
      simp [List.replicate_succ]
    rw [this]
    unfold digitsToNat at *
    simpa using ih

theorem padNat_length (w n : Nat) (h : (natDigits n).length ≤ w) :
    (padNat w n).length = w := by
  unfold padNat
  simp only [List.length_append, List.length_replicate]
  omega

theorem digitsToNat_padNat (w n : Nat) : digitsToNat (padNat w n) = n := by
  unfold padNat
  rw [digitsToNat_replicate_zero_append, digitsToNat_natDigits]

/-! ### Base64 (models `base64.StdEncoding.EncodeToString`) -/

@[simp] theorem convertForJSON_array {F : Type} (xs : List (DocValue F)) :
    convertForJSON (.array xs) = .arr (xs.map convertForJSON) := by
  rw [convertForJSON, List.attach_map_val]

@[simp] theorem convertForJSON_map {F : Type} (kvs : List (String × DocValue F)) :
    convertForJSON (.map kvs) = .obj (kvs.map (fun kv => (kv.1, convertForJSON kv.2))) := by
  rw [convertForJSON]
  exact congrArg Plain.obj
    (List.attach_map_val kvs (fun kv => (kv.1, convertForJSON kv.2)))

@[simp] theorem toPJson_arr {F : Type} (fmtJ : F → String) (xs : List (Plain F)) :
    toPJson fmtJ (.arr xs) = .arr (xs.map (toPJson fmtJ)) := by
  rw [toPJson, List.attach_map_val]

@[simp] theorem toPJson_obj {F : Type} (fmtJ : F → String) (kvs : List (String × Plain F)) :
    toPJson fmtJ (.obj kvs) =
      .obj (sortByKey (kvs.map (fun kv => (kv.1, toPJson fmtJ kv.2)))) := by
  rw [toPJson]
  exact congrArg (fun l => PJson.obj (sortByKey l))
    (List.attach_map_val kvs (fun kv => (kv.1, toPJson fmtJ kv.2)))

/-! ### The collection exporter (src/unnamed/part_001 `exportCollection`)

The exporter drains the document iterator (the Firestore query already
carries the `Limit` clause when the cap is positive), collects the set of
distinct field names while buffering documents, and on success writes one
header row plus one row per document.  File-system and stream failures are
inputs of the model: a stream may raise an error after yielding its
documents, and creating the output file may fail. -/

theorem mem_insertField (s : List String) (k x : String) :
    x ∈ insertField s k ↔ x ∈ s ∨ x = k := by
  unfold insertField
  split
  · next h =>
    constructor
    · intro hx
      exact Or.inl hx
    · rintro (hx | rfl)
      · exact hx
      · exact h
  · simp

theorem insertField_nodup (s : List String) (k : String) (h : s.Nodup) :
    (insertField s k).Nodup := by
  unfold insertField
  split
  · exact h
  · next hk =>
    refine h.append (List.nodup_singleton k) ?_
    intro a ha hmem
    simp only [List.mem_singleton] at hmem
    subst hmem
    exact hk ha

theorem mem_foldl_insertField {F : Type} (l : List (String × DocValue F)) :
    ∀ (s : List String) (x : String),
      x ∈ l.foldl (fun s2 kv => insertField s2 kv.1) s ↔
        x ∈ s ∨ ∃ kv ∈ l, kv.1 = x := by
  induction l with
  | nil => intro s x; simp
  | cons kv l ih =>
    intro s x
    rw [List.foldl_cons, ih, mem_insertField]
    simp only [List.mem_cons]
    constructor
    · rintro ((hs | heq) | ⟨kv', hkv', heq⟩)
      · exact Or.inl hs
      · exact Or.inr ⟨kv, Or.inl rfl, heq.symm⟩
      · exact Or.inr ⟨kv', Or.inr hkv', heq⟩
    · rintro (hs | ⟨kv', hkv', heq⟩)
      · exact Or.inl (Or.inl hs)
      · rcases hkv' with rfl | hmem
        · exact Or.inl (Or.inr heq.symm)
        · exact Or.inr ⟨kv', hmem, heq⟩

theorem foldl_insertField_nodup {F : Type} (l : List (String × DocValue F)) :
    ∀ s : List String, s.Nodup →
      (l.foldl (fun s2 kv => insertField s2 kv.1) s).Nodup := by
  induction l with
  | nil => intro s hs; exact hs
  | cons kv l ih =>
    intro s hs
    rw [List.foldl_cons]
    exact ih _ (insertField_nodup s kv.1 hs)

theorem collectFields_aux_mem {F : Type} (docs : List (DocRecord F)) :
    ∀ (s : List String) (x : String),
      x ∈ docs.foldl (fun s d => d.data.foldl (fun s2 kv => insertField s2 kv.1) s) s ↔
        x ∈ s ∨ ∃ d ∈ docs, ∃ kv ∈ d.data, kv.1 = x := by
  induction docs with
  | nil => intro s x; simp
  | cons d docs ih =>
    intro s x
    rw [List.foldl_cons, ih, mem_foldl_insertField]
    simp only [List.mem_cons]
    constructor
    · rintro ((hs | ⟨kv, hkv, heq⟩) | ⟨d', hd', hkv⟩)
      · exact Or.inl hs
      · exact Or.inr ⟨d, Or.inl rfl, kv, hkv, heq⟩
      · exact Or.inr ⟨d', Or.inr hd', hkv⟩
    · rintro (hs | ⟨d', hd', hkv⟩)
      · exact Or.inl (Or.inl hs)
      · rcases hd' with rfl | hmem
        · exact Or.inl (Or.inr hkv)
        · exact Or.inr ⟨d', hmem, hkv⟩

theorem mem_collectFields {F : Type} (docs : List (DocRecord F)) (x : String) :
    x ∈ collectFields docs ↔ ∃ d ∈ docs, ∃ kv ∈ d.data, kv.1 = x := by
  unfold collectFields
  rw [collectFields_aux_mem]
  simp

theorem collectFields_nodup {F : Type} (docs : List (DocRecord F)) :
    (collectFields docs).Nodup := by
  unfold collectFields
  have aux : ∀ (l : List (DocRecord F)) (s : List String), s.Nodup →
      (l.foldl (fun s d => d.data.foldl (fun s2 kv => insertField s2 kv.1) s) s).Nodup := by
    intro l
    induction l with
    | nil => intro s hs; exact hs
    | cons d l ih =>
      intro s hs
      rw [List.foldl_cons]
      exact ih _ (foldl_insertField_nodup d.data s hs)
  exact aux docs [] List.nodup_nil

theorem csvFields_sorted {F : Type} (docs : List (DocRecord F)) :
    List.Sorted (fun a b => strLe a b = true) (csvFields docs) :=
  List.sorted_insertionSort _ _

theorem csvFields_perm_invariant {F : Type} {docs docs' : List (DocRecord F)}
    (h : docs.Perm docs') : csvFields docs = csvFields docs' := by
  apply List.eq_of_perm_of_sorted (r := fun a b => strLe a b = true) ?_
    (csvFields_sorted docs) (csvFields_sorted docs')
  have pmid : (collectFields docs).Perm (collectFields docs') := by
    rw [List.perm_ext_iff_of_nodup (collectFields_nodup docs) (collectFields_nodup docs')]
    intro a
    rw [mem_collectFields, mem_collectFields]
    constructor
    · rintro ⟨d, hd, rest⟩
      exact ⟨d, h.mem_iff.mp hd, rest⟩
    · rintro ⟨d, hd, rest⟩
      exact ⟨d, h.mem_iff.mpr hd, rest⟩
  exact ((List.perm_insertionSort _ _).trans pmid).trans
    (List.perm_insertionSort _ _).symm

/-! ### Driver aggregation lemmas -/

theorem foldl_append_eq_map {α β : Type} (f : α → β) (l : List α) :
    ∀ acc : List β, l.foldl (fun acc n => acc ++ [f n]) acc = acc ++ l.map f := by
  induction l with
  | nil => intro acc; simp
  | cons a l ih => intro acc; rw [List.foldl_cons, ih, List.map_cons]; simp

theorem foldl_filter_append {α β : Type} (p : α → Bool) (g : α → β) (l : List α) :
    ∀ acc : List β,
      l.foldl (fun acc r => if p r then acc ++ [g r] else acc) acc =
        acc ++ (l.filter p).map g := by
  induction l with
  | nil => intro acc; simp
  | cons a l ih =>
    intro acc
    rw [List.foldl_cons]
    by_cases hp : p a
    · simp only [hp, if_true, ih, List.filter_cons, List.map_cons]
      simp
    · simp only [hp, if_false, ih, List.filter_cons]
      simp [hp]

/-- Claim C7: the export driver applies the per-collection exporter to every
resolved collection name in order, recording exactly one outcome per
collection, and the overall run status is failure if and only if at least
one collection's outcome carries an error. -/
theorem runDriver_attempts_all_and_fails_iff (exporter : String → ExportResult)
    (names : List String) :
    (runDriver exporter names).1 = names.map exporter ∧
      ((runDriver exporter names).2 = false ↔
        ∃ r ∈ (runDriver exporter names).1, r.err ≠ none) := by
  constructor
  · show (runDriver exporter names).1 = names.map exporter
    unfold runDriver
    simp only [foldl_append_eq_map, List.nil_append]
  · unfold runDriver
    simp only [foldl_append_eq_map, foldl_filter_append, List.nil_append]
    constructor
    · intro h
      rcases hf : (names.map exporter).filter (fun r => r.err.isSome) with _ | ⟨r, rs⟩
      · rw [hf] at h
        simp at h
      · have hr : r ∈ (names.map exporter).filter (fun r => r.err.isSome) := by
          rw [hf]
          exact List.mem_cons_self r rs
        exact ⟨r, (List.mem_filter.mp hr).1,
          Option.isSome_iff_ne_none.mp (List.mem_filter.mp hr).2⟩
    · rintro ⟨r, hr, hne⟩
      rcases hf : (names.map exporter).filter (fun r => r.err.isSome) with _ | ⟨r', rs⟩
      · exfalso
        rw [List.filter_eq_nil_iff] at hf
        exact hf r hr (Option.isSome_iff_ne_none.mpr hne)
      · rw [hf]
        simp

/-- Claim C8: a collection whose stream yields zero documents and ends
cleanly produces no output file and a success outcome with zero document
count, zero field count and no file path. -/
theorem exportCollection_empty {F : Type} (fmtF fmtJ : F → String) (name : String)
    (limit : Nat) (stream : DocStream F) (dir : String) (createErr : Option String)
    (hdocs : stream.docs = []) (hclean : stream.failAfter = none) :
    exportCollection fmtF fmtJ name limit stream dir createErr =
      ({ collection := name, docCount := 0, fieldCount := 0, filePath := "",
         err := none }, none) := by
  unfold exportCollection drainStream
  rw [hdocs, hclean]
  simp

/-- Witness for C8 at a concrete empty stream. -/
theorem exportCollection_empty_witness :
    exportCollection (fun _ : Unit => "0") (fun _ => "0") "users" 0 ⟨[], none⟩ "." none =
      ({ collection := "users", docCount := 0, fieldCount := 0, filePath := "",
         err := none }, none) :=
  exportCollection_empty (fun _ => "0") (fun _ => "0") "users" 0 ⟨[], none⟩ "." none rfl rfl

theorem renderCell_eq {F : Type} (fmtF fmtJ : F → String) (d : DocRecord F)
    (h : String) :
    renderCell fmtF fmtJ d h = (d.data.lookup h).elim "" (formatValue fmtF fmtJ) := by
  unfold renderCell
  rcases hl : d.data.lookup h with _ | v
  · rfl
  · rcases v <;> rfl

theorem exportCollection_success {F : Type} (fmtF fmtJ : F → String) (name : String)
    (limit : Nat) (stream : DocStream F) (dir : String) (docs : List (DocRecord F))
    (hdrain : drainStream limit stream = .ok docs) (hne : docs ≠ []) :
    exportCollection fmtF fmtJ name limit stream dir none =
      ({ collection := name, docCount := docs.length,
         fieldCount := (collectFields docs).length,
         filePath := dir ++ "/" ++ name ++ ".csv", err := none },
        some (csvHeaders docs :: docs.map (buildRow fmtF fmtJ (csvFields docs)))) := by
  unfold exportCollection
  rw [hdrain]
  have h1 : docs.isEmpty = false := by
    rcases docs with _ | ⟨d, ds⟩
    · exact absurd rfl hne
    · rfl
  simp [h1]

/-- Claim C4: the header row of a non-empty collection is the fixed
sentinel column `__document_id__` followed by the distinct field names
observed across all read documents in ascending lexicographic order, and
the same header results from every permutation of document arrival order. -/
theorem csvHeaders_sorted_union_perm {F : Type} (docs docs' : List (DocRecord F))
    (hne : docs ≠ []) (hperm : docs.Perm docs') :
    csvHeaders docs = "__document_id__" :: csvFields docs ∧
      List.Sorted (fun a b => strLe a b = true) (csvFields docs) ∧
      (∀ x, x ∈ csvFields docs ↔ ∃ d ∈ docs, ∃ kv ∈ d.data, kv.1 = x) ∧
      csvHeaders docs' = csvHeaders docs := by
  refine ⟨rfl, csvFields_sorted docs, ?_, ?_⟩
  · intro x
    unfold csvFields sortStrings
    rw [List.mem_insertionSort, mem_collectFields]
  · unfold csvHeaders
    rw [csvFields_perm_invariant hperm]

/-- Witness for C4: the specification's three documents with field sets
(a), (b), (a, c), against a swapped arrival order, with the concrete
column list evaluated. -/
theorem csvHeaders_sorted_union_perm_witness :
    (csvHeaders docsABC = "__document_id__" :: csvFields docsABC ∧
      List.Sorted (fun a b => strLe a b = true) (csvFields docsABC) ∧
      (∀ x, x ∈ csvFields docsABC ↔ ∃ d ∈ docsABC, ∃ kv ∈ d.data, kv.1 = x) ∧
      csvHeaders [docY, docX, docZ] = csvHeaders docsABC) ∧
    csvHeaders docsABC = ["__document_id__", "a", "b", "c"] :=
  ⟨csvHeaders_sorted_union_perm docsABC [docY, docX, docZ]
      (by unfold docsABC; exact List.cons_ne_nil _ _)
      (by unfold docsABC; exact List.Perm.swap docY docX [docZ]),
    by decide⟩

/-- Claim C5: a successful non-empty export writes the header row followed
by exactly one row per buffered document in read order; each row starts
with the document identifier, and each remaining cell is the normalizer's
rendering of that document's value for the column's field, or the empty
string when the field is absent — and a present `Null` field renders to
the same empty string, so absence and `Null` are indistinguishable. -/
theorem exportCollection_rows {F : Type} (fmtF fmtJ : F → String) (name : String)
    (limit : Nat) (stream : DocStream F) (dir : String) (docs : List (DocRecord F))
    (hdrain : drainStream limit stream = .ok docs) (hne : docs ≠ []) :
    (exportCollection fmtF fmtJ name limit stream dir none).2 =
      some (csvHeaders docs ::
        docs.map (fun d => d.id :: (csvFields docs).map
          (fun h => (d.data.lookup h).elim "" (formatValue fmtF fmtJ)))) ∧
      formatValue fmtF fmtJ (DocValue.null (F := F)) = "" := by
  refine ⟨?_, rfl⟩
  rw [exportCollection_success fmtF fmtJ name limit stream dir docs hdrain hne]
  dsimp only
  refine congrArg (fun l => some (csvHeaders docs :: l)) ?_
  apply List.map_congr_left
  intro d _
  unfold buildRow
  refine congrArg (fun l => d.id :: l) ?_
  apply List.map_congr_left
  intro h _
  exact renderCell_eq fmtF fmtJ d h

/-- Witness for C5: the specification's worked example (`d1` with `name`
only, `d2` with `name` and `age`) produces header `__document_id__,age,name`
and rows `d1,,Alice` then `d2,30,Bob`. -/
theorem exportCollection_rows_witness :
    ((exportCollection unitFmt unitFmt "users" 0 streamEx "." none).2 =
      some (csvHeaders docsEx ::
        docsEx.map (fun d => d.id :: (csvFields docsEx).map
          (fun h => (d.data.lookup h).elim "" (formatValue unitFmt unitFmt)))) ∧
      formatValue unitFmt unitFmt (DocValue.null (F := Unit)) = "") ∧
    (exportCollection unitFmt unitFmt "users" 0 streamEx "." none).2 =
      some [["__document_id__", "age", "name"], ["d1", "", "Alice"], ["d2", "30", "Bob"]] :=
  ⟨exportCollection_rows unitFmt unitFmt "users" 0 streamEx "." docsEx rfl
      (by unfold docsEx; exact List.cons_ne_nil _ _),
    by decide⟩

/-- Claim C10: every data row handed to the CSV writer has exactly as many
cells as the header row, namely one more than the number of distinct field
names, whichever subset of fields each document carries. -/
theorem exportCollection_row_lengths {F : Type} (fmtF fmtJ : F → String)
    (name : String) (limit : Nat) (stream : DocStream F) (dir : String)
    (docs : List (DocRecord F)) (hdr : List String) (rows : List (List String))
    (hdrain : drainStream limit stream = .ok docs) (hne : docs ≠ [])
    (hfile : (exportCollection fmtF fmtJ name limit stream dir none).2 =
      some (hdr :: rows)) :
    hdr.length = 1 + (collectFields docs).length ∧
      ∀ r ∈ rows, r.length = hdr.length := by
  rw [exportCollection_success fmtF fmtJ name limit stream dir docs hdrain hne] at hfile
  simp only [Option.some.injEq, List.cons.injEq] at hfile
  obtain ⟨h1, h2⟩ := hfile
  have hlen : hdr.length = 1 + (collectFields docs).length := by
    rw [← h1]
    unfold csvHeaders csvFields sortStrings
    rw [List.length_cons, List.length_insertionSort]
    omega
  refine ⟨hlen, ?_⟩
  intro r hr
  rw [← h2] at hr
  obtain ⟨d, _, rfl⟩ := List.mem_map.mp hr
  unfold buildRow
  rw [List.length_cons, List.length_map, hlen]
  unfold csvFields sortStrings
  rw [List.length_insertionSort]
  omega

/-- Witness for C10 at the worked example: both data rows have the same
width as the three-column header. -/
theorem exportCollection_row_lengths_witness :
    (["__document_id__", "age", "name"] : List String).length =
        1 + (collectFields docsEx).length ∧
      ∀ r ∈ [["d1", "", "Alice"], ["d2", "30", "Bob"]],
        r.length = (["__document_id__", "age", "name"] : List String).length :=
  exportCollection_row_lengths unitFmt unitFmt "users" 0 streamEx "." docsEx
    ["__document_id__", "age", "name"] [["d1", "", "Alice"], ["d2", "30", "Bob"]]
    rfl (by unfold docsEx; exact List.cons_ne_nil _ _) (by decide)

/-- Counterexample to claim C2 as stated: a timestamp with nanosecond
value 123000000 normalizes with fraction `.123` — the `RFC3339Nano` layout
trims the trailing zero nanoseconds — not with the full nine digits
`.123000000` the claim requires. -/
theorem timestampFraction_counterexample :
    formatValue unitFmt unitFmt
        (.timestamp ⟨2024, 1, 15, 10, 30, 0, 123000000⟩) =
      "2024-01-15T10:30:00.123Z" ∧
    ("2024-01-15T10:30:00.123Z" : String) ≠ "2024-01-15T10:30:00.123000000Z" := by
  decide

/-- Claim C2 amended: for a timestamp with non-zero nanosecond value the
normalizer emits the RFC 3339 UTC text with a fractional field present,
holding the nine-digit zero-padded nanosecond value with its trailing
zeros trimmed — between one and nine digits, the last digit non-zero —
and restoring the trimmed zeros recovers the nanosecond value exactly. -/
theorem timestampFraction_trimmed {F : Type} (fmtF fmtJ : F → String) (t : GoTime)
    (h0 : 0 < t.nanos) (h9 : t.nanos < 10 ^ 9) :
    ∃ ds : List Char,
      formatValue fmtF fmtJ (.timestamp t) =
        ⟨padNat 4 t.year ++ '-' :: padNat 2 t.month ++ '-' :: padNat 2 t.day ++
          'T' :: padNat 2 t.hour ++ ':' :: padNat 2 t.minute ++
          ':' :: padNat 2 t.second ++ ('.' :: ds) ++ ['Z']⟩ ∧
      ds ≠ [] ∧ ds.getLast? ≠ some '0' ∧ ds.length ≤ 9 ∧
      digitsToNat (ds ++ List.replicate (9 - ds.length) '0') = t.nanos := by
  have hpadlen : (padNat 9 t.nanos).length = 9 :=
    padNat_length 9 t.nanos (natDigits_length_le 9 t.nanos h9 (by omega))
  set ds := trimTrailingZeros (padNat 9 t.nanos) with hds
  have hspec : padNat 9 t.nanos = ds ++ List.replicate (9 - ds.length) '0' := by
    have := trimTrailingZeros_spec (padNat 9 t.nanos)
    rw [hpadlen] at this
    exact this
  have hne : ds ≠ [] := by
    intro hnil
    rw [hnil, List.nil_append] at hspec
    have : digitsToNat (padNat 9 t.nanos) = 0 := by
      rw [hspec]
      have := digitsToNat_replicate_zero_append (9 - ([] : List Char).length) []
      simpa [digitsToNat] using this
    rw [digitsToNat_padNat] at this
    omega
  have hfrac : nanoFrac t.nanos = '.' :: ds := by
    unfold nanoFrac
    rw [← hds]
    rcases hd : ds with _ | ⟨c, cs⟩
    · exact absurd hd hne
    · simp
  refine ⟨ds, ?_, hne, trimTrailingZeros_getLast_ne_zero _, ?_, ?_⟩
  · show String.mk (formatRFC3339Nano t) = _
    unfold formatRFC3339Nano
    rw [hfrac]
  · calc ds.length ≤ (padNat 9 t.nanos).length := trimTrailingZeros_length_le _
      _ = 9 := hpadlen
  · rw [← hspec, digitsToNat_padNat]

/-- Witness for the amended C2 at nanosecond value 123000000. -/
theorem timestampFraction_trimmed_witness :
    ∃ ds : List Char,
      formatValue unitFmt unitFmt
          (.timestamp ⟨2024, 1, 15, 10, 30, 0, 123000000⟩) =
        ⟨padNat 4 2024 ++ '-' :: padNat 2 1 ++ '-' :: padNat 2 15 ++
          'T' :: padNat 2 10 ++ ':' :: padNat 2 30 ++
          ':' :: padNat 2 0 ++ ('.' :: ds) ++ ['Z']⟩ ∧
      ds ≠ [] ∧ ds.getLast? ≠ some '0' ∧ ds.length ≤ 9 ∧
      digitsToNat (ds ++ List.replicate (9 - ds.length) '0') = 123000000 :=
  timestampFraction_trimmed unitFmt unitFmt ⟨2024, 1, 15, 10, 30, 0, 123000000⟩
    (by norm_num) (by norm_num)

/-- Counterexample to claim C1 as stated: a two-key map received in the
order (b, a) and nested inside an array marshals with its keys sorted —
`encoding/json.Marshal` sorts Go map keys — not in the received order. -/
theorem mapKeyOrder_counterexample :
    formatValue unitFmt unitFmt (.array [.map [("b", .int 1), ("a", .int 2)]]) =
      "[\x7b\"a\":2,\"b\":1\x7d]" ∧
    ("[\x7b\"a\":2,\"b\":1\x7d]" : String) ≠ "[\x7b\"b\":1,\"a\":2\x7d]" := by
  constructor
  · simp [formatValue, marshalPlain, convertForJSON, toPJson, sortByKey, serialize,
      serializeElems, serializeMembers, escapeStr, escapeChar, formatInt, natDigits,
      natDigitsGo, strLe, lexLe, Nat.digitChar]
  · decide

/-- Claim C1 amended: for every Map value — nested inside an Array here —
the key order of the marshalled compact JSON object is the ascending
byte-wise lexicographic order of the map's keys, not the order in which
the keys were received from the store. -/
theorem mapKeyOrder_sorted {F : Type} (fmtF fmtJ : F → String)
    (kvs : List (String × DocValue F)) (h2 : 2 ≤ kvs.length) :
    ∃ entries : List (String × PJson),
      formatValue fmtF fmtJ (.array [.map kvs]) =
        ⟨'[' :: serialize (.obj entries) ++ [']']⟩ ∧
      formatValue fmtF fmtJ (.map kvs) = ⟨serialize (.obj entries)⟩ ∧
      List.Sorted (fun a b => strLe a b = true) (entries.map Prod.fst) ∧
      (entries.map Prod.fst).Perm (kvs.map Prod.fst) := by
  refine ⟨sortByKey (kvs.map (fun kv => (kv.1, toPJson fmtJ (convertForJSON kv.2)))),
    ?_, ?_, ?_, ?_⟩
  · show marshalPlain fmtJ (convertForJSON (.array [.map kvs])) = _
    unfold marshalPlain
    rw [convertForJSON_array]
    simp only [List.map_cons, List.map_nil, convertForJSON_map, toPJson_arr,
      List.map_cons, List.map_nil, toPJson_obj, List.map_map]
    rw [serialize, serializeElems]
    rfl
  · show marshalPlain fmtJ (convertForJSON (.map kvs)) = _
    unfold marshalPlain
    rw [convertForJSON_map]
    simp only [toPJson_obj, List.map_map]
    rfl
  · have hsorted : List.Sorted (fun p q : String × PJson => strLe p.1 q.1 = true)
        (sortByKey (kvs.map (fun kv => (kv.1, toPJson fmtJ (convertForJSON kv.2))))) :=
      List.sorted_insertionSort _ _
    unfold List.Sorted
    rw [List.pairwise_map]
    exact hsorted
  · have hperm : (sortByKey (kvs.map (fun kv =>
        (kv.1, toPJson fmtJ (convertForJSON kv.2))))).Perm
          (kvs.map (fun kv => (kv.1, toPJson fmtJ (convertForJSON kv.2)))) :=
      List.perm_insertionSort _ _
    have := hperm.map Prod.fst
    rw [List.map_map] at this
    have heq : (Prod.fst ∘ fun kv : String × DocValue F =>
        (kv.1, toPJson fmtJ (convertForJSON kv.2))) = Prod.fst := by
      funext kv
      rfl
    rw [heq] at this
    exact this

/-- Witness for the amended C1 at the two-key counterexample map. -/
theorem mapKeyOrder_sorted_witness :
    ∃ entries : List (String × PJson),
      formatValue unitFmt unitFmt (.array [.map [("b", .int 1), ("a", .int 2)]]) =
        ⟨'[' :: serialize (.obj entries) ++ [']']⟩ ∧
      formatValue unitFmt unitFmt (.map [("b", .int 1), ("a", .int 2)]) =
        ⟨serialize (.obj entries)⟩ ∧
      List.Sorted (fun a b => strLe a b = true) (entries.map Prod.fst) ∧
      (entries.map Prod.fst).Perm
        (([("b", DocValue.int 1), ("a", DocValue.int 2)] :
          List (String × DocValue Unit)).map Prod.fst) :=
  mapKeyOrder_sorted unitFmt unitFmt [("b", .int 1), ("a", .int 2)] (by decide)

/-! ### Canonical-form lemmas (claim C9) -/

@[simp] theorem canon_null {F : Type} : canon (.null : DocValue F) = .null := by
  simp [canon]

@[simp] theorem canon_bool {F : Type} (b : Bool) :
    canon (.bool b : DocValue F) = .bool b := by
  simp [canon]

@[simp] theorem canon_int {F : Type} (i : Int) :
    canon (.int i : DocValue F) = .int i := by
  simp [canon]

@[simp] theorem canon_float {F : Type} (f : F) :
    canon (.float f : DocValue F) = .float f := by
  simp [canon]

@[simp] theorem canon_text {F : Type} (s : String) :
    canon (.text s : DocValue F) = .text s := by
  simp [canon]

@[simp] theorem canon_timestamp {F : Type} (t : GoTime) :
    canon (.timestamp t : DocValue F) = .timestamp t := by
  simp [canon]

@[simp] theorem canon_geo {F : Type} (la ln : F) :
    canon (.geo la ln : DocValue F) = .geo la ln := by
  simp [canon]

@[simp] theorem canon_bytes {F : Type} (bs : List Nat) :
    canon (.bytes bs : DocValue F) = .bytes bs := by
  simp [canon]

@[simp] theorem canon_ref {F : Type} (p : String) :
    canon (.ref p : DocValue F) = .ref p := by
  simp [canon]

@[simp] theorem canon_array {F : Type} (xs : List (DocValue F)) :
    canon (.array xs) = .array (xs.map canon) := by
  rw [canon]
  exact congrArg DocValue.array (List.attach_map_val xs canon)

@[simp] theorem canon_map {F : Type} (kvs : List (String × DocValue F)) :
    canon (.map kvs) = .map (sortByKey (kvs.map (fun kv => (kv.1, canon kv.2)))) := by
  rw [canon]
  exact congrArg (fun l => DocValue.map (sortByKey l))
    (List.attach_map_val kvs (fun kv => (kv.1, canon kv.2)))

theorem eq_of_perm_of_sortedByKey {γ : Type} {l1 l2 : List (String × γ)}
    (hperm : l1.Perm l2)
    (h1 : List.Pairwise (fun p q : String × γ => strLe p.1 q.1 = true) l1)
    (h2 : List.Pairwise (fun p q : String × γ => strLe p.1 q.1 = true) l2)
    (hnd : (l1.map Prod.fst).Nodup) : l1 = l2 := by
  haveI : IsAntisymm (String × γ)
      (fun p q => strLe p.1 q.1 = true ∧ p.1 ≠ q.1) := by
    constructor
    rintro ⟨ka, va⟩ ⟨kb, vb⟩ ⟨hab, hne⟩ ⟨hba, _⟩
    exact absurd
      (IsAntisymm.antisymm (r := fun a b : String => strLe a b = true) ka kb hab hba)
      hne
  have hnd2 : (l2.map Prod.fst).Nodup := (hperm.map Prod.fst).nodup_iff.mp hnd
  have hp1 : List.Pairwise (fun p q : String × γ => p.1 ≠ q.1) l1 :=
    List.pairwise_map.mp hnd
  have hp2 : List.Pairwise (fun p q : String × γ => p.1 ≠ q.1) l2 :=
    List.pairwise_map.mp hnd2
  exact List.eq_of_perm_of_sorted
    (r := fun p q : String × γ => strLe p.1 q.1 = true ∧ p.1 ≠ q.1)
    hperm (h1.and hp1) (h2.and hp2)

theorem sortByKey_sorted {γ : Type} (l : List (String × γ)) :
    List.Pairwise (fun p q : String × γ => strLe p.1 q.1 = true) (sortByKey l) :=
  List.sorted_insertionSort _ _

theorem sortByKey_perm {γ : Type} (l : List (String × γ)) :
    (sortByKey l).Perm l :=
  List.perm_insertionSort _ _

theorem sortByKey_map_of_sortByKey {β γ : Type} (g : String × β → String × γ)
    (hg : ∀ p, (g p).1 = p.1) (l : List (String × β))
    (hnd : (l.map Prod.fst).Nodup) :
    sortByKey (List.map g (sortByKey l)) = sortByKey (List.map g l) := by
  have hkeys : ∀ m : List (String × β), (List.map g m).map Prod.fst = m.map Prod.fst := by
    intro m
    rw [List.map_map]
    apply List.map_congr_left
    intro p _
    exact hg p
  have hperm : (sortByKey (List.map g (sortByKey l))).Perm
      (sortByKey (List.map g l)) := by
    refine ((sortByKey_perm _).trans ?_).trans (sortByKey_perm _).symm
    exact (sortByKey_perm l).map g
  apply eq_of_perm_of_sortedByKey hperm (sortByKey_sorted _) (sortByKey_sorted _)
  have : ((sortByKey (List.map g (sortByKey l))).map Prod.fst).Perm
      ((List.map g l).map Prod.fst) := by
    refine List.Perm.map Prod.fst ?_
    exact (sortByKey_perm _).trans ((sortByKey_perm l).map g)
  rw [this.nodup_iff, hkeys]
  exact hnd

@[simp] theorem marshalTree_arr {F : Type} (fmtJ : F → String)
    (xs : List (DocValue F)) :
    marshalTree fmtJ (.array xs) = .arr (xs.map (marshalTree fmtJ)) := by
  unfold marshalTree
  rw [convertForJSON_array, toPJson_arr, List.map_map]
  rfl

@[simp] theorem marshalTree_map {F : Type} (fmtJ : F → String)
    (kvs : List (String × DocValue F)) :
    marshalTree fmtJ (.map kvs) =
      .obj (sortByKey (kvs.map (fun kv => (kv.1, marshalTree fmtJ kv.2)))) := by
  unfold marshalTree
  rw [convertForJSON_map, toPJson_obj, List.map_map]
  rfl

theorem marshalTree_canon {F : Type} (fmtJ : F → String) :
    ∀ v : DocValue F, WFv v →
      marshalTree fmtJ (canon v) = marshalTree fmtJ v
  | .null, _ => by rw [canon_null]
  | .bool b, _ => by rw [canon_bool]
  | .int i, _ => by rw [canon_int]
  | .float f, _ => by rw [canon_float]
  | .text s, _ => by rw [canon_text]
  | .timestamp t, _ => by rw [canon_timestamp]
  | .geo la ln, _ => by rw [canon_geo]
  | .bytes bs, _ => by rw [canon_bytes]
  | .ref p, _ => by rw [canon_ref]
  | .array xs, hwf => by
    have hmem : ∀ x ∈ xs, WFv x := by
      cases hwf with
      | array h => exact h
    rw [canon_array, marshalTree_arr, marshalTree_arr, List.map_map]
    refine congrArg PJson.arr ?_
    apply List.map_congr_left
    intro x hx
    show marshalTree fmtJ (canon x) = marshalTree fmtJ x
    exact marshalTree_canon fmtJ x (hmem x hx)
  | .map kvs, hwf => by
    have hnd : (kvs.map Prod.fst).Nodup := by
      cases hwf with
      | map h _ => exact h
    have hmem : ∀ kv ∈ kvs, WFv kv.2 := by
      cases hwf with
      | map _ h => exact h
    have hnd2 : ((kvs.map (fun kv => (kv.1, canon kv.2))).map Prod.fst).Nodup := by
      rw [List.map_map]
      have hcomp : (Prod.fst ∘ fun kv : String × DocValue F => (kv.1, canon kv.2)) =
          Prod.fst := by
        funext kv
        rfl
      rw [hcomp]
      exact hnd
    rw [canon_map, marshalTree_map, marshalTree_map]
    refine congrArg PJson.obj ?_
    rw [sortByKey_map_of_sortByKey (fun kv => (kv.1, marshalTree fmtJ kv.2))
      (fun p => rfl) (kvs.map (fun kv => (kv.1, canon kv.2))) hnd2, List.map_map]
    refine congrArg sortByKey ?_
    apply List.map_congr_left
    intro kv hkv
    show (kv.1, marshalTree fmtJ (canon kv.2)) = (kv.1, marshalTree fmtJ kv.2)
    exact congrArg (fun z => (kv.1, z)) (marshalTree_canon fmtJ kv.2 (hmem kv hkv))
  termination_by v => sizeOf v
  decreasing_by
  · have h := List.sizeOf_lt_of_mem hx
    simp only [DocValue.array.sizeOf_spec]
    omega
  · have h := List.sizeOf_lt_of_mem hkv
    rcases hkv4 : kv with ⟨k2, v2⟩
    simp only [DocValue.map.sizeOf_spec, Prod.mk.sizeOf_spec, hkv4] at h ⊢
    omega

theorem formatValue_canon {F : Type} (fmtF fmtJ : F → String) (v : DocValue F)
    (hv : WFv v) :
    formatValue fmtF fmtJ (canon v) = formatValue fmtF fmtJ v := by
  cases v with
  | null => rw [canon_null]
  | bool b => rw [canon_bool]
  | int i => rw [canon_int]
  | float f => rw [canon_float]
  | text s => rw [canon_text]
  | timestamp t => rw [canon_timestamp]
  | geo la ln => rw [canon_geo]
  | bytes bs => rw [canon_bytes]
  | ref p => rw [canon_ref]
  | array xs =>
    have h := marshalTree_canon fmtJ (.array xs) hv
    rw [canon_array] at h
    rw [canon_array]
    show String.mk (serialize (marshalTree fmtJ (.array (xs.map canon)))) =
      String.mk (serialize (marshalTree fmtJ (.array xs)))
    rw [h]
  | map kvs =>
    have h := marshalTree_canon fmtJ (.map kvs) hv
    rw [canon_map] at h
    rw [canon_map]
    show String.mk (serialize (marshalTree fmtJ
        (.map (sortByKey (kvs.map (fun kv => (kv.1, canon kv.2))))))) =
      String.mk (serialize (marshalTree fmtJ (.map kvs)))
    rw [h]

/-- Claim C9: the normalizer is total — `formatValue` is a function
defined by an exhaustive match over the closed value type — and
deterministic: two well-formed values that are equal as Go values produce
identical output text.  A Go map has no entry order, so two embedded
values denote the same Go value exactly when their canonical forms (every
map node sorted by key) coincide; determinism across map entry order is
the non-trivial half, and holds because `json.Marshal` sorts object keys. -/
theorem formatValue_deterministic {F : Type} (fmtF fmtJ : F → String)
    (v w : DocValue F) (hv : WFv v) (hw : WFv w) (h : canon v = canon w) :
    formatValue fmtF fmtJ v = formatValue fmtF fmtJ w := by
  rw [← formatValue_canon fmtF fmtJ v hv, h, formatValue_canon fmtF fmtJ w hw]

/-- Witness for C9: the same two-key Go map received in two different
iteration orders normalizes to the same text. -/
theorem formatValue_deterministic_witness :
    formatValue unitFmt unitFmt (.map [("b", .int 1), ("a", .int 2)]) =
      formatValue unitFmt unitFmt (.map [("a", .int 2), ("b", .int 1)]) :=
  formatValue_deterministic unitFmt unitFmt
    (.map [("b", .int 1), ("a", .int 2)]) (.map [("a", .int 2), ("b", .int 1)])
    (WFv.map (by decide) (by
      intro kv hkv
      simp only [List.mem_cons, List.not_mem_nil, or_false] at hkv
      rcases hkv with rfl | rfl
      · exact WFv.int 1
      · exact WFv.int 2))
    (WFv.map (by decide) (by
      intro kv hkv
      simp only [List.mem_cons, List.not_mem_nil, or_false] at hkv
      rcases hkv with rfl | rfl
      · exact WFv.int 2
      · exact WFv.int 1))
    (by simp [sortByKey, strLe, lexLe])

/-! ### String-escape round trip (claim C6) -/

@[simp] theorem plainTree_arr {F : Type} (fmtJ : F → String) (xs : List (Plain F)) :
    plainTree fmtJ (.arr xs) = .arr (xs.map (plainTree fmtJ)) := by
  rw [plainTree]
  exact congrArg PJson.arr (List.attach_map_val xs (plainTree fmtJ))

@[simp] theorem plainTree_obj {F : Type} (fmtJ : F → String)
    (kvs : List (String × Plain F)) :
    plainTree fmtJ (.obj kvs) =
      .obj (kvs.map (fun kv => (kv.1, plainTree fmtJ kv.2))) := by
  rw [plainTree]
  exact congrArg PJson.obj
    (List.attach_map_val kvs (fun kv => (kv.1, plainTree fmtJ kv.2)))

theorem hexVal_hexDigitLower (k : Nat) (h : k < 16) :
    hexVal (hexDigitLower k) = some k := by
  interval_cases k <;> decide

theorem parseStrChars_uEscape (c : Char) (hlt : c.toNat < 65536)
    (tail : List Char) :
    parseStrChars (uEscape c.toNat ++ tail) =
      match parseStrChars tail with
      | some (p, r) => some (c :: p, r)
      | none => none := by
  show parseStrChars ('\\' :: 'u' :: hexDigitLower (c.toNat / 4096 % 16) ::
    hexDigitLower (c.toNat / 256 % 16) :: hexDigitLower (c.toNat / 16 % 16) ::
    hexDigitLower (c.toNat % 16) :: tail) = _
  rw [show parseStrChars ('\\' :: 'u' :: hexDigitLower (c.toNat / 4096 % 16) ::
      hexDigitLower (c.toNat / 256 % 16) :: hexDigitLower (c.toNat / 16 % 16) ::
      hexDigitLower (c.toNat % 16) :: tail) =
    (match hexVal (hexDigitLower (c.toNat / 4096 % 16)),
           hexVal (hexDigitLower (c.toNat / 256 % 16)),
           hexVal (hexDigitLower (c.toNat / 16 % 16)),
           hexVal (hexDigitLower (c.toNat % 16)) with
     | some a, some b, some c2, some d =>
       (match parseStrChars tail with
        | some (s, r) => some (Char.ofNat (4096 * a + 256 * b + 16 * c2 + d) :: s, r)
        | none => none)
     | _, _, _, _ => none) from rfl]
  rw [hexVal_hexDigitLower (c.toNat / 4096 % 16) (Nat.mod_lt _ (by omega)),
    hexVal_hexDigitLower (c.toNat / 256 % 16) (Nat.mod_lt _ (by omega)),
    hexVal_hexDigitLower (c.toNat / 16 % 16) (Nat.mod_lt _ (by omega)),
    hexVal_hexDigitLower (c.toNat % 16) (Nat.mod_lt _ (by omega))]
  have harith : 4096 * (c.toNat / 4096 % 16) + 256 * (c.toNat / 256 % 16) +
      16 * (c.toNat / 16 % 16) + c.toNat % 16 = c.toNat := by omega
  simp only []
  rw [harith, Char.ofNat_toNat]

theorem parseStrChars_raw (c : Char) (tail : List Char)
    (h1 : c ≠ '"') (h2 : c ≠ '\\') :
    parseStrChars (c :: tail) =
      match parseStrChars tail with
      | some (s, r) => some (c :: s, r)
      | none => none := by
  rw [parseStrChars.eq_def]
  split
  · rename_i heq
    exact absurd heq (List.cons_ne_nil _ _)
  · rename_i heq
    injection heq with hc _
    exact absurd hc h1
  · rename_i heq
    injection heq with hc _
    exact absurd hc h2
  · rename_i heq
    injection heq with hc _
    exact absurd hc h2
  · rename_i heq
    injection heq with hc ht
    subst hc
    subst ht
    rfl

theorem parseStrChars_escape (s rest : List Char) :
    parseStrChars (escapeStr s ++ '"' :: rest) = some (s, rest) := by
  induction s with
  | nil => rfl
  | cons c cs ih =>
    show parseStrChars ((escapeChar c ++ escapeStr cs) ++ '"' :: rest) = _
    rw [List.append_assoc]
    by_cases h1 : c = '"'
    · subst h1
      show parseStrChars ('\\' :: '"' :: (escapeStr cs ++ '"' :: rest)) = _
      rw [show parseStrChars ('\\' :: '"' :: (escapeStr cs ++ '"' :: rest)) =
        (match parseStrChars (escapeStr cs ++ '"' :: rest) with
         | some (p, r) => some ('"' :: p, r)
         | none => none) from rfl, ih]
    · by_cases h2 : c = '\\'
      · subst h2
        show parseStrChars ('\\' :: '\\' :: (escapeStr cs ++ '"' :: rest)) = _
        rw [show parseStrChars ('\\' :: '\\' :: (escapeStr cs ++ '"' :: rest)) =
          (match parseStrChars (escapeStr cs ++ '"' :: rest) with
           | some (p, r) => some ('\\' :: p, r)
           | none => none) from rfl, ih]
      · by_cases h3 : c = '\n'
        · subst h3
          show parseStrChars ('\\' :: 'n' :: (escapeStr cs ++ '"' :: rest)) = _
          rw [show parseStrChars ('\\' :: 'n' :: (escapeStr cs ++ '"' :: rest)) =
            (match parseStrChars (escapeStr cs ++ '"' :: rest) with
             | some (p, r) => some ('\n' :: p, r)
             | none => none) from rfl, ih]
        · by_cases h4 : c = '\r'
          · subst h4
            show parseStrChars ('\\' :: 'r' :: (escapeStr cs ++ '"' :: rest)) = _
            rw [show parseStrChars ('\\' :: 'r' :: (escapeStr cs ++ '"' :: rest)) =
              (match parseStrChars (escapeStr cs ++ '"' :: rest) with
               | some (p, r) => some ('\r' :: p, r)
               | none => none) from rfl, ih]
          · by_cases h5 : c = '\t'
            · subst h5
              show parseStrChars ('\\' :: 't' :: (escapeStr cs ++ '"' :: rest)) = _
              rw [show parseStrChars ('\\' :: 't' :: (escapeStr cs ++ '"' :: rest)) =
                (match parseStrChars (escapeStr cs ++ '"' :: rest) with
                 | some (p, r) => some ('\t' :: p, r)
                 | none => none) from rfl, ih]
            · by_cases h6 : c = '<' ∨ c = '>' ∨ c = '&'
              · have hesc : escapeChar c = uEscape c.toNat := by
                  unfold escapeChar
                  rw [if_neg h1, if_neg h2, if_neg h3, if_neg h4, if_neg h5,
                    if_pos h6]
                have hlt : c.toNat < 65536 := by
                  rcases h6 with rfl | rfl | rfl <;> decide
                rw [hesc, parseStrChars_uEscape c hlt, ih]
              · by_cases h7 : c.toNat < 32
                · have hesc : escapeChar c = uEscape c.toNat := by
                    unfold escapeChar
                    rw [if_neg h1, if_neg h2, if_neg h3, if_neg h4, if_neg h5,
                      if_neg h6, if_pos h7]
                  rw [hesc, parseStrChars_uEscape c (by omega), ih]
                · by_cases h8 : c.toNat = 8232 ∨ c.toNat = 8233
                  · have hesc : escapeChar c = uEscape c.toNat := by
                      unfold escapeChar
                      rw [if_neg h1, if_neg h2, if_neg h3, if_neg h4, if_neg h5,
                        if_neg h6, if_neg h7, if_pos h8]
                    have hlt : c.toNat < 65536 := by omega
                    rw [hesc, parseStrChars_uEscape c hlt, ih]
                  · have hesc : escapeChar c = [c] := by
                      unfold escapeChar
                      rw [if_neg h1, if_neg h2, if_neg h3, if_neg h4, if_neg h5,
                        if_neg h6, if_neg h7, if_neg h8]
                    rw [hesc]
                    show parseStrChars (c :: (escapeStr cs ++ '"' :: rest)) = _
                    rw [parseStrChars_raw c _ h1 h2, ih]

/-! ### Number tokens and fuel bounds (claim C6) -/

theorem numTokOK_mk (l : List Char) :
    numTokOK ⟨l⟩ =
      match l with
      | [] => false
      | c :: _ => numStart c && l.all numChar := rfl

theorem numChar_of_isDigit (c : Char) (h : c.isDigit = true) : numChar c = true := by
  unfold numChar
  rw [h]
  rfl

theorem numTokOK_formatInt (i : Int) : numTokOK ⟨formatInt i⟩ = true := by
  have hdigits : ∀ c ∈ natDigits i.natAbs, numChar c = true := fun c hc =>
    numChar_of_isDigit c (natDigits_all_isDigit i.natAbs c hc)
  unfold formatInt
  split
  · rw [numTokOK_mk]
    show (numStart '-' && ('-' :: natDigits i.natAbs).all numChar) = true
    rw [Bool.and_eq_true, List.all_cons, Bool.and_eq_true, List.all_eq_true]
    exact ⟨by decide, by decide, hdigits⟩
  · rcases hd : natDigits i.natAbs with _ | ⟨d, ds⟩
    · exact absurd hd (natDigits_ne_nil _)
    · rw [numTokOK_mk]
      show (numStart d && (d :: ds).all numChar) = true
      have hdmem : d ∈ natDigits i.natAbs := by
        rw [hd]
        exact List.mem_cons_self d ds
      have hddigit : d.isDigit = true := natDigits_all_isDigit i.natAbs d hdmem
      rw [Bool.and_eq_true, List.all_eq_true]
      constructor
      · unfold numStart
        rw [hddigit]
        rfl
      · intro x hx
        apply hdigits
        rw [hd]
        exact hx

theorem one_le_needV (j : PJson) : 1 ≤ needV j := by
  cases j <;> simp [needV]

theorem one_le_needL (xs : List PJson) : 1 ≤ needL xs := by
  cases xs <;> simp [needL]

theorem one_le_needM (ms : List (String × PJson)) : 1 ≤ needM ms := by
  cases ms <;> simp [needM]

theorem numStart_num_head {t : String} (ht : numTokOK t = true) :
    ∃ c cs, t.data = c :: cs ∧ numStart c = true ∧ ∀ x ∈ t.data, numChar x = true := by
  rcases hd : t.data with _ | ⟨c, cs⟩
  · unfold numTokOK at ht
    rw [hd] at ht
    exact absurd ht (by decide)
  · unfold numTokOK at ht
    rw [hd] at ht
    have ht2 : (numStart c && (c :: cs).all numChar) = true := ht
    refine ⟨c, cs, rfl, ((Bool.and_eq_true _ _).mp ht2).1, ?_⟩
    have := ((Bool.and_eq_true _ _).mp ht2).2
    rw [List.all_eq_true] at this
    exact this

theorem serialize_head (j : PJson) (hj : NumsOK j) :
    ∃ c cs, serialize j = c :: cs ∧ c ≠ ']' ∧ c ≠ '\x7d' := by
  cases j with
  | null => exact ⟨'n', ['u', 'l', 'l'], rfl, by decide, by decide⟩
  | bool b =>
    cases b
    · exact ⟨'f', ['a', 'l', 's', 'e'], rfl, by decide, by decide⟩
    · exact ⟨'t', ['r', 'u', 'e'], rfl, by decide, by decide⟩
  | num t =>
    have ht : numTokOK t = true := by
      cases hj with
      | num h => exact h
    obtain ⟨c, cs, hd, hstart, _⟩ := numStart_num_head ht
    refine ⟨c, cs, ?_, ?_, ?_⟩
    · rw [show serialize (.num t) = t.data from by simp [serialize]]
      exact hd
    · intro h
      subst h
      exact absurd hstart (by decide)
    · intro h
      subst h
      exact absurd hstart (by decide)
  | str s =>
    exact ⟨'"', escapeStr s.data ++ ['"'], by simp [serialize], by decide, by decide⟩
  | arr xs =>
    exact ⟨'[', serializeElems xs, by simp [serialize], by decide, by decide⟩
  | obj kvs =>
    exact ⟨'\x7b', serializeMembers kvs, by simp [serialize], by decide, by decide⟩

theorem serialize_length_pos (j : PJson) (hj : NumsOK j) :
    1 ≤ (serialize j).length := by
  obtain ⟨c, cs, heq, _, _⟩ := serialize_head j hj
  rw [heq]
  simp

theorem takeWhile_numChar_append (l r : List Char) (hl : ∀ x ∈ l, numChar x = true)
    (hr : NumBoundary r) : (l ++ r).takeWhile numChar = l := by
  induction l with
  | nil =>
    simp only [List.nil_append]
    cases r with
    | nil => rfl
    | cons d r' =>
      have hd : numChar d = false := hr
      rw [List.takeWhile_cons]
      simp [hd]
  | cons a l' ih =>
    rw [List.cons_append, List.takeWhile_cons, hl a (List.mem_cons_self _ _)]
    simp only [if_true]
    rw [ih (fun x hx => hl x (List.mem_cons_of_mem _ hx))]

theorem dropWhile_numChar_append (l r : List Char) (hl : ∀ x ∈ l, numChar x = true)
    (hr : NumBoundary r) : (l ++ r).dropWhile numChar = r := by
  induction l with
  | nil =>
    simp only [List.nil_append]
    cases r with
    | nil => rfl
    | cons d r' =>
      have hd : numChar d = false := hr
      rw [List.dropWhile_cons]
      simp [hd]
  | cons a l' ih =>
    rw [List.cons_append, List.dropWhile_cons, hl a (List.mem_cons_self _ _)]
    simp only [if_true]
    exact ih (fun x hx => hl x (List.mem_cons_of_mem _ hx))

mutual

theorem needV_le : ∀ j : PJson, NumsOK j → needV j ≤ (serialize j).length
  | .null, _ => by decide
  | .bool b, _ => by cases b <;> decide
  | .num t, hj => by
    have ht : numTokOK t = true := by
      cases hj with
      | num h => exact h
    obtain ⟨c, cs, hd, _, _⟩ := numStart_num_head ht
    simp [needV, serialize, hd]
  | .str s, _ => by simp [needV, serialize]
  | .arr xs, hj => by
    have h := needL_le xs (by
      cases hj with
      | arr h => exact h)
    rw [show serialize (.arr xs) = '[' :: serializeElems xs from by simp [serialize]]
    rw [List.length_cons]
    have hv : needV (.arr xs) = 1 + needL xs := by simp [needV]
    omega
  | .obj kvs, hj => by
    have h := needM_le kvs (by
      cases hj with
      | obj h => exact h)
    rw [show serialize (.obj kvs) = '\x7b' :: serializeMembers kvs from by
      simp [serialize]]
    rw [List.length_cons]
    have hv : needV (.obj kvs) = 1 + needM kvs := by simp [needV]
    omega

theorem needL_le : ∀ xs : List PJson, (∀ x ∈ xs, NumsOK x) →
    needL xs ≤ (serializeElems xs).length
  | [], _ => by simp [needL, serializeElems]
  | [x], hx => by
    have h1 := needV_le x (hx x (List.mem_cons_self _ _))
    have hp := serialize_length_pos x (hx x (List.mem_cons_self _ _))
    rw [show serializeElems [x] = serialize x ++ [']'] from by simp [serializeElems]]
    rw [List.length_append]
    have hL : needL [x] = 1 + max (needV x) (needL ([] : List PJson)) := by
      simp [needL]
    have hnil : needL ([] : List PJson) = 1 := by simp [needL]
    simp only [List.length_cons, List.length_nil]
    omega
  | x :: y :: ys, hx => by
    have h1 := needV_le x (hx x (List.mem_cons_self _ _))
    have h2 := needL_le (y :: ys) (fun a ha => hx a (List.mem_cons_of_mem _ ha))
    rw [show serializeElems (x :: y :: ys) =
      serialize x ++ ',' :: serializeElems (y :: ys) from by simp [serializeElems]]
    rw [List.length_append, List.length_cons]
    have hL : needL (x :: y :: ys) = 1 + max (needV x) (needL (y :: ys)) := by
      simp [needL]
    omega

theorem needM_le : ∀ ms : List (String × PJson), (∀ kv ∈ ms, NumsOK kv.2) →
    needM ms ≤ (serializeMembers ms).length
  | [], _ => by simp [needM, serializeMembers]
  | [(k, v)], hm => by
    have h1 := needV_le v (hm (k, v) (List.mem_cons_self _ _))
    rw [show serializeMembers [(k, v)] =
      '"' :: escapeStr k.data ++ '"' :: ':' :: serialize v ++ ['\x7d'] from by
        simp [serializeMembers]]
    have hM : needM [(k, v)] = 1 + max (needV v) (needM ([] : List (String × PJson))) := by
      simp [needM]
    have hnil : needM ([] : List (String × PJson)) = 1 := by simp [needM]
    simp only [List.length_cons, List.length_append, List.length_nil]
    omega
  | (k, v) :: m2 :: ms', hm => by
    have h1 := needV_le v (hm (k, v) (List.mem_cons_self _ _))
    have h2 := needM_le (m2 :: ms') (fun a ha => hm a (List.mem_cons_of_mem _ ha))
    rw [show serializeMembers ((k, v) :: m2 :: ms') =
      '"' :: escapeStr k.data ++ '"' :: ':' :: serialize v ++
        ',' :: serializeMembers (m2 :: ms') from by simp [serializeMembers]]
    have hM : needM ((k, v) :: m2 :: ms') = 1 + max (needV v) (needM (m2 :: ms')) := by
      simp [needM]
    simp only [List.length_cons, List.length_append]
    omega

end

theorem numStart_ne_delims (c : Char) (h : numStart c = true) :
    c ≠ 'n' ∧ c ≠ 't' ∧ c ≠ 'f' ∧ c ≠ '"' ∧ c ≠ '[' ∧ c ≠ '\x7b' := by
  refine ⟨?_, ?_, ?_, ?_, ?_, ?_⟩ <;>
    (intro hc; subst hc; exact absurd h (by decide))

theorem numBoundary_cons (d : Char) (l : List Char) (h : numChar d = false) :
    NumBoundary (d :: l) := h

theorem serializeElems_cons (x : PJson) (xs : List PJson) :
    ∃ t, serializeElems (x :: xs) = serialize x ++ t := by
  cases xs with
  | nil => exact ⟨[']'], by simp [serializeElems]⟩
  | cons y ys => exact ⟨',' :: serializeElems (y :: ys), by simp [serializeElems]⟩

theorem serializeMembers_cons (k : String) (v : PJson)
    (ms : List (String × PJson)) :
    ∃ t, serializeMembers ((k, v) :: ms) =
      '"' :: (escapeStr k.data ++ '"' :: ':' :: serialize v ++ t) := by
  cases ms with
  | nil => exact ⟨['\x7d'], by simp [serializeMembers]⟩
  | cons m ms' =>
    exact ⟨',' :: serializeMembers (m :: ms'), by simp [serializeMembers]⟩

theorem parseV_num_head (fuel : Nat) (c : Char) (l : List Char)
    (h : numStart c = true) :
    parseV (fuel + 1) (c :: l) =
      some (.num ⟨c :: l.takeWhile numChar⟩, l.dropWhile numChar) := by
  obtain ⟨h1, h2, h3, h4, h5, h6⟩ := numStart_ne_delims c h
  rw [show parseV (fuel + 1) (c :: l) =
    (if c = 'n' then
      if l.take 3 = ['u', 'l', 'l'] then some (.null, l.drop 3) else none
    else if c = 't' then
      if l.take 3 = ['r', 'u', 'e'] then some (.bool true, l.drop 3) else none
    else if c = 'f' then
      if l.take 4 = ['a', 'l', 's', 'e'] then some (.bool false, l.drop 4)
      else none
    else if c = '"' then
      match parseStrChars l with
      | some (p, r) => some (.str ⟨p⟩, r)
      | none => none
    else if c = '[' then
      if l.take 1 = [']'] then some (.arr [], l.drop 1)
      else
        match parseElems fuel l with
        | some (vs, r) => some (.arr vs, r)
        | none => none
    else if c = '\x7b' then
      if l.take 1 = ['\x7d'] then some (.obj [], l.drop 1)
      else
        match parseMembers fuel l with
        | some (ms, r) => some (.obj ms, r)
        | none => none
    else if numStart c then
      some (.num ⟨c :: l.takeWhile numChar⟩, l.dropWhile numChar)
    else none) from rfl]
  rw [if_neg h1, if_neg h2, if_neg h3, if_neg h4, if_neg h5, if_neg h6, if_pos h]

mutual

/-- Parsing the serialization of a value (followed by any non-number-char
boundary) recovers the value and the boundary exactly. -/
theorem parseV_ser : ∀ (fuel : Nat) (j : PJson), NumsOK j → needV j ≤ fuel →
    ∀ rest : List Char, NumBoundary rest →
    parseV fuel (serialize j ++ rest) = some (j, rest)
  | 0, j, _, hf, _, _ => absurd hf (by have := one_le_needV j; omega)
  | fuel + 1, .null, _, _, rest, _ => by
    rw [show serialize PJson.null ++ rest = 'n' :: 'u' :: 'l' :: 'l' :: rest
      from rfl]
    rfl
  | fuel + 1, .bool b, _, _, rest, _ => by
    cases b with
    | true =>
      rw [show serialize (PJson.bool true) ++ rest =
        't' :: 'r' :: 'u' :: 'e' :: rest from rfl]
      rfl
    | false =>
      rw [show serialize (PJson.bool false) ++ rest =
        'f' :: 'a' :: 'l' :: 's' :: 'e' :: rest from rfl]
      rfl
  | fuel + 1, .num t, hj, _, rest, hrest => by
    have ht : numTokOK t = true := by
      cases hj with
      | num h => exact h
    obtain ⟨c, cs, hd, hstart, hall⟩ := numStart_num_head ht
    have hcs : ∀ x ∈ cs, numChar x = true := fun x hx =>
      hall x (by rw [hd]; exact List.mem_cons_of_mem _ hx)
    rw [show serialize (PJson.num t) ++ rest = c :: (cs ++ rest) from by
      simp [serialize, hd]]
    rw [parseV_num_head fuel c (cs ++ rest) hstart]
    rw [takeWhile_numChar_append cs rest hcs hrest,
      dropWhile_numChar_append cs rest hcs hrest]
    rw [show (⟨c :: cs⟩ : String) = t from by rw [← hd]]
  | fuel + 1, .str s, _, _, rest, _ => by
    rw [show serialize (PJson.str s) ++ rest =
      '"' :: (escapeStr s.data ++ '"' :: rest) from by simp [serialize]]
    rw [show parseV (fuel + 1) ('"' :: (escapeStr s.data ++ '"' :: rest)) =
      (match parseStrChars (escapeStr s.data ++ '"' :: rest) with
       | some (p, r) => some (.str ⟨p⟩, r)
       | none => none) from rfl]
    rw [parseStrChars_escape s.data rest]
  | fuel + 1, .arr [], _, _, rest, _ => by
    rw [show serialize (PJson.arr []) ++ rest = '[' :: ']' :: rest from by
      simp [serialize, serializeElems]]
    rfl
  | fuel + 1, .arr (x :: xs), hj, hf, rest, hrest => by
    have hxs : ∀ a ∈ x :: xs, NumsOK a := by
      cases hj with
      | arr h => exact h
    have hfl : needL (x :: xs) ≤ fuel := by
      have hv : needV (PJson.arr (x :: xs)) = 1 + needL (x :: xs) := by
        simp [needV]
      omega
    obtain ⟨t, hts⟩ := serializeElems_cons x xs
    obtain ⟨c0, cs0, hser, hne1, _⟩ :=
      serialize_head x (hxs x (List.mem_cons_self _ _))
    have htake : (serializeElems (x :: xs) ++ rest).take 1 = [c0] := by
      rw [hts, hser]
      rfl
    have hcond : ¬((serializeElems (x :: xs) ++ rest).take 1 = [']']) := by
      rw [htake]
      intro hcontra
      injection hcontra with hc _
      exact hne1 hc
    rw [show serialize (PJson.arr (x :: xs)) ++ rest =
      '[' :: (serializeElems (x :: xs) ++ rest) from by simp [serialize]]
    rw [show parseV (fuel + 1) ('[' :: (serializeElems (x :: xs) ++ rest)) =
      (if (serializeElems (x :: xs) ++ rest).take 1 = [']'] then
        some (.arr [], (serializeElems (x :: xs) ++ rest).drop 1)
      else
        match parseElems fuel (serializeElems (x :: xs) ++ rest) with
        | some (vs, r) => some (.arr vs, r)
        | none => none) from rfl]
    rw [if_neg hcond]
    rw [parseElems_ser fuel (x :: xs) (List.cons_ne_nil _ _) hxs hfl rest hrest]
  | fuel + 1, .obj [], _, _, rest, _ => by
    rw [show serialize (PJson.obj []) ++ rest = '\x7b' :: '\x7d' :: rest from by
      simp [serialize, serializeMembers]]
    rfl
  | fuel + 1, .obj ((k, v) :: ms), hj, hf, rest, hrest => by
    have hms : ∀ kv ∈ (k, v) :: ms, NumsOK kv.2 := by
      cases hj with
      | obj h => exact h
    have hfm : needM ((k, v) :: ms) ≤ fuel := by
      have hv : needV (PJson.obj ((k, v) :: ms)) = 1 + needM ((k, v) :: ms) := by
        simp [needV]
      omega
    obtain ⟨t, hts⟩ := serializeMembers_cons k v ms
    have htake : (serializeMembers ((k, v) :: ms) ++ rest).take 1 = ['"'] := by
      rw [hts]
      rfl
    have hcond : ¬((serializeMembers ((k, v) :: ms) ++ rest).take 1 = ['\x7d']) := by
      rw [htake]
      decide
    rw [show serialize (PJson.obj ((k, v) :: ms)) ++ rest =
      '\x7b' :: (serializeMembers ((k, v) :: ms) ++ rest) from by simp [serialize]]
    rw [show parseV (fuel + 1) ('\x7b' :: (serializeMembers ((k, v) :: ms) ++ rest)) =
      (if (serializeMembers ((k, v) :: ms) ++ rest).take 1 = ['\x7d'] then
        some (.obj [], (serializeMembers ((k, v) :: ms) ++ rest).drop 1)
      else
        match parseMembers fuel (serializeMembers ((k, v) :: ms) ++ rest) with
        | some (mbs, r) => some (.obj mbs, r)
        | none => none) from rfl]
    rw [if_neg hcond]
    rw [parseMembers_ser fuel ((k, v) :: ms) (List.cons_ne_nil _ _) hms hfm
      rest hrest]

/-- Parsing the serialization of a non-empty element list (with trailing
bracket) recovers the elements and what follows the bracket. -/
theorem parseElems_ser : ∀ (fuel : Nat) (xs : List PJson), xs ≠ [] →
    (∀ x ∈ xs, NumsOK x) → needL xs ≤ fuel → ∀ rest : List Char,
    NumBoundary rest →
    parseElems fuel (serializeElems xs ++ rest) = some (xs, rest)
  | 0, xs, _, _, hf, _, _ => absurd hf (by have := one_le_needL xs; omega)
  | fuel + 1, [], hne, _, _, _, _ => absurd rfl hne
  | fuel + 1, [x], _, hx, hf, rest, hrest => by
    have hnx := hx x (List.mem_cons_self _ _)
    have hfx : needV x ≤ fuel := by
      have h1 : needL [x] = 1 + max (needV x) (needL ([] : List PJson)) := by
        simp [needL]
      have h0 : needL ([] : List PJson) = 1 := by simp [needL]
      omega
    rw [show serializeElems [x] ++ rest = serialize x ++ (']' :: rest) from by
      simp [serializeElems]]
    rw [show parseElems (fuel + 1) (serialize x ++ (']' :: rest)) =
      (match parseV fuel (serialize x ++ (']' :: rest)) with
       | none => none
       | some (v, r) =>
         match r with
         | ',' :: r2 =>
           match parseElems fuel r2 with
           | some (vs, r3) => some (v :: vs, r3)
           | none => none
         | ']' :: r2 => some ([v], r2)
         | _ => none) from rfl]
    rw [parseV_ser fuel x hnx hfx (']' :: rest) (numBoundary_cons _ _ (by decide))]
    rfl
  | fuel + 1, x :: y :: ys, _, hx, hf, rest, hrest => by
    have hnx := hx x (List.mem_cons_self _ _)
    have h1 : needL (x :: y :: ys) = 1 + max (needV x) (needL (y :: ys)) := by
      simp [needL]
    have hfx : needV x ≤ fuel := by omega
    have hfl : needL (y :: ys) ≤ fuel := by omega
    rw [show serializeElems (x :: y :: ys) ++ rest =
      serialize x ++ (',' :: (serializeElems (y :: ys) ++ rest)) from by
      simp [serializeElems]]
    rw [show parseElems (fuel + 1)
      (serialize x ++ (',' :: (serializeElems (y :: ys) ++ rest))) =
      (match parseV fuel
        (serialize x ++ (',' :: (serializeElems (y :: ys) ++ rest))) with
       | none => none
       | some (v, r) =>
         match r with
         | ',' :: r2 =>
           match parseElems fuel r2 with
           | some (vs, r3) => some (v :: vs, r3)
           | none => none
         | ']' :: r2 => some ([v], r2)
         | _ => none) from rfl]
    rw [parseV_ser fuel x hnx hfx (',' :: (serializeElems (y :: ys) ++ rest))
      (numBoundary_cons _ _ (by decide))]
    show (match parseElems fuel (serializeElems (y :: ys) ++ rest) with
      | some (vs, r3) => some (x :: vs, r3)
      | none => none) = some (x :: y :: ys, rest)
    rw [parseElems_ser fuel (y :: ys) (List.cons_ne_nil _ _)
      (fun a ha => hx a (List.mem_cons_of_mem _ ha)) hfl rest hrest]

/-- Parsing the serialization of a non-empty member list (with trailing
brace) recovers the members and what follows the brace. -/
theorem parseMembers_ser : ∀ (fuel : Nat) (ms : List (String × PJson)),
    ms ≠ [] → (∀ kv ∈ ms, NumsOK kv.2) → needM ms ≤ fuel →
    ∀ rest : List Char, NumBoundary rest →
    parseMembers fuel (serializeMembers ms ++ rest) = some (ms, rest)
  | 0, ms, _, _, hf, _, _ => absurd hf (by have := one_le_needM ms; omega)
  | fuel + 1, [], hne, _, _, _, _ => absurd rfl hne
  | fuel + 1, [(k, v)], _, hm, hf, rest, hrest => by
    have hnv := hm (k, v) (List.mem_cons_self _ _)
    have hfv : needV v ≤ fuel := by
      have h1 : needM [(k, v)] =
          1 + max (needV v) (needM ([] : List (String × PJson))) := by
        simp [needM]
      have h0 : needM ([] : List (String × PJson)) = 1 := by simp [needM]
      omega
    rw [show serializeMembers [(k, v)] ++ rest =
      '"' :: (escapeStr k.data ++ '"' ::
        (':' :: (serialize v ++ ('\x7d' :: rest)))) from by simp [serializeMembers]]
    rw [show parseMembers (fuel + 1) ('"' :: (escapeStr k.data ++ '"' ::
      (':' :: (serialize v ++ ('\x7d' :: rest))))) =
      (match parseStrChars (escapeStr k.data ++ '"' ::
        (':' :: (serialize v ++ ('\x7d' :: rest)))) with
       | none => none
       | some (kcs, r) =>
         match r with
         | ':' :: r2 =>
           match parseV fuel r2 with
           | none => none
           | some (v2, r3) =>
             match r3 with
             | ',' :: r4 =>
               match parseMembers fuel r4 with
               | some (ms2, r5) => some ((⟨kcs⟩, v2) :: ms2, r5)
               | none => none
             | '\x7d' :: r4 => some ([(⟨kcs⟩, v2)], r4)
             | _ => none
         | _ => none) from rfl]
    rw [parseStrChars_escape k.data (':' :: (serialize v ++ ('\x7d' :: rest)))]
    show (match parseV fuel (serialize v ++ ('\x7d' :: rest)) with
      | none => none
      | some (v2, r3) =>
        match r3 with
        | ',' :: r4 =>
          match parseMembers fuel r4 with
          | some (ms2, r5) => some ((⟨k.data⟩, v2) :: ms2, r5)
          | none => none
        | '\x7d' :: r4 => some ([(⟨k.data⟩, v2)], r4)
        | _ => none) = some ([(k, v)], rest)
    rw [parseV_ser fuel v hnv hfv ('\x7d' :: rest) (numBoundary_cons _ _ (by decide))]
    rfl
  | fuel + 1, (k, v) :: m2 :: ms, _, hm, hf, rest, hrest => by
    have hnv := hm (k, v) (List.mem_cons_self _ _)
    have h1 : needM ((k, v) :: m2 :: ms) =
        1 + max (needV v) (needM (m2 :: ms)) := by simp [needM]
    have hfv : needV v ≤ fuel := by omega
    have hfm : needM (m2 :: ms) ≤ fuel := by omega
    rw [show serializeMembers ((k, v) :: m2 :: ms) ++ rest =
      '"' :: (escapeStr k.data ++ '"' ::
        (':' :: (serialize v ++ (',' :: (serializeMembers (m2 :: ms) ++ rest)))))
      from by simp [serializeMembers]]
    rw [show parseMembers (fuel + 1) ('"' :: (escapeStr k.data ++ '"' ::
      (':' :: (serialize v ++ (',' :: (serializeMembers (m2 :: ms) ++ rest)))))) =
      (match parseStrChars (escapeStr k.data ++ '"' ::
        (':' :: (serialize v ++ (',' :: (serializeMembers (m2 :: ms) ++ rest))))) with
       | none => none
       | some (kcs, r) =>
         match r with
         | ':' :: r2 =>
           match parseV fuel r2 with
           | none => none
           | some (v2, r3) =>
             match r3 with
             | ',' :: r4 =>
               match parseMembers fuel r4 with
               | some (ms2, r5) => some ((⟨kcs⟩, v2) :: ms2, r5)
               | none => none
             | '\x7d' :: r4 => some ([(⟨kcs⟩, v2)], r4)
             | _ => none
         | _ => none) from rfl]
    rw [parseStrChars_escape k.data
      (':' :: (serialize v ++ (',' :: (serializeMembers (m2 :: ms) ++ rest))))]
    show (match parseV fuel
      (serialize v ++ (',' :: (serializeMembers (m2 :: ms) ++ rest))) with
      | none => none
      | some (v2, r3) =>
        match r3 with
        | ',' :: r4 =>
          match parseMembers fuel r4 with
          | some (ms2, r5) => some ((⟨k.data⟩, v2) :: ms2, r5)
          | none => none
        | '\x7d' :: r4 => some ([(⟨k.data⟩, v2)], r4)
        | _ => none) = some ((k, v) :: m2 :: ms, rest)
    rw [parseV_ser fuel v hnv hfv
      (',' :: (serializeMembers (m2 :: ms) ++ rest))
      (numBoundary_cons _ _ (by decide))]
    show (match parseMembers fuel (serializeMembers (m2 :: ms) ++ rest) with
      | some (ms2, r5) => some ((⟨k.data⟩, v) :: ms2, r5)
      | none => none) = some ((k, v) :: m2 :: ms, rest)
    rw [parseMembers_ser fuel (m2 :: ms) (List.cons_ne_nil _ _)
      (fun a ha => hm a (List.mem_cons_of_mem _ ha)) hfm rest hrest]

end

@[simp] theorem plainFloatsOK_arr {F : Type} (fmtJ : F → Option String)
    (xs : List (Plain F)) :
    plainFloatsOK fmtJ (.arr xs) =
      (xs.map (plainFloatsOK fmtJ)).all (fun b => b) := by
  rw [plainFloatsOK]
  exact congrArg (fun l : List Bool => l.all (fun b => b))
    (List.attach_map_val xs (plainFloatsOK fmtJ))

@[simp] theorem plainFloatsOK_obj {F : Type} (fmtJ : F → Option String)
    (kvs : List (String × Plain F)) :
    plainFloatsOK fmtJ (.obj kvs) =
      (kvs.map (fun kv => plainFloatsOK fmtJ kv.2)).all (fun b => b) := by
  rw [plainFloatsOK]
  exact congrArg (fun l : List Bool => l.all (fun b => b))
    (List.attach_map_val kvs (fun kv => plainFloatsOK fmtJ kv.2))

theorem NumsOK_toPJson_ok {F : Type} (fmtJ : F → Option String)
    (hfl : ∀ f s, fmtJ f = some s → numTokOK s = true) :
    ∀ p : Plain F, plainFloatsOK fmtJ p = true →
      NumsOK (toPJson (fun f => (fmtJ f).getD "") p)
  | .null, _ => by
    rw [show toPJson (fun f => (fmtJ f).getD "") Plain.null = PJson.null from by
      simp [toPJson]]
    exact .null
  | .bool b, _ => by
    rw [show toPJson (fun f => (fmtJ f).getD "") (Plain.bool b) = PJson.bool b
      from by simp [toPJson]]
    exact .bool b
  | .int i, _ => by
    rw [show toPJson (fun f => (fmtJ f).getD "") (Plain.int i) =
      PJson.num ⟨formatInt i⟩ from by simp [toPJson]]
    exact .num (numTokOK_formatInt i)
  | .float f, hok => by
    rw [show toPJson (fun f2 => (fmtJ f2).getD "") (Plain.float f) =
      PJson.num ((fmtJ f).getD "") from by simp [toPJson]]
    have hsome : (fmtJ f).isSome = true := by
      rw [show plainFloatsOK fmtJ (Plain.float f) = (fmtJ f).isSome from by
        simp [plainFloatsOK]] at hok
      exact hok
    obtain ⟨s, hs⟩ := Option.isSome_iff_exists.mp hsome
    refine .num ?_
    rw [hs]
    exact hfl f s hs
  | .str s, _ => by
    rw [show toPJson (fun f => (fmtJ f).getD "") (Plain.str s) = PJson.str s
      from by simp [toPJson]]
    exact .str s
  | .arr xs, hok => by
    rw [toPJson_arr]
    refine .arr ?_
    intro x hx
    obtain ⟨p, hp, hpx⟩ := List.mem_map.mp hx
    rw [← hpx]
    have hpok : plainFloatsOK fmtJ p = true := by
      rw [plainFloatsOK_arr] at hok
      exact List.all_eq_true.mp hok (plainFloatsOK fmtJ p)
        (List.mem_map_of_mem _ hp)
    exact NumsOK_toPJson_ok fmtJ hfl p hpok
  | .obj kvs, hok => by
    rw [toPJson_obj]
    refine .obj ?_
    intro kv hkv
    obtain ⟨q, hq, hqe⟩ := List.mem_map.mp ((sortByKey_perm _).subset hkv)
    rw [← hqe]
    have hqok : plainFloatsOK fmtJ q.2 = true := by
      rw [plainFloatsOK_obj] at hok
      exact List.all_eq_true.mp hok (plainFloatsOK fmtJ q.2)
        (List.mem_map_of_mem _ hq)
    exact NumsOK_toPJson_ok fmtJ hfl q.2 hqok
  termination_by p => sizeOf p
  decreasing_by
  · have h := List.sizeOf_lt_of_mem hp
    simp only [Plain.arr.sizeOf_spec]
    omega
  · have h := List.sizeOf_lt_of_mem hq
    rcases hq4 : q with ⟨k2, v2⟩
    simp only [Plain.obj.sizeOf_spec, Prod.mk.sizeOf_spec, hq4] at h ⊢
    omega

theorem PEquivList_map {α : Type} (f g : α → PJson) :
    ∀ l : List α, (∀ x ∈ l, PEquiv (f x) (g x)) →
      PEquivList (l.map f) (l.map g)
  | [], _ => .nil
  | x :: l, h => .cons (h x (List.mem_cons_self _ _))
      (PEquivList_map f g l (fun a ha => h a (List.mem_cons_of_mem _ ha)))

theorem PEquivMembers_map {α : Type} (k : α → String) (f g : α → PJson) :
    ∀ l : List α, (∀ x ∈ l, PEquiv (f x) (g x)) →
      PEquivMembers (l.map (fun x => (k x, f x))) (l.map (fun x => (k x, g x)))
  | [], _ => .nil
  | x :: l, h => .cons (h x (List.mem_cons_self _ _))
      (PEquivMembers_map k f g l (fun a ha => h a (List.mem_cons_of_mem _ ha)))

theorem PEquiv_toPJson_plainTree {F : Type} (fmtJ : F → String) :
    ∀ p : Plain F, PEquiv (toPJson fmtJ p) (plainTree fmtJ p)
  | .null => by
    rw [show toPJson fmtJ Plain.null = PJson.null from by simp [toPJson],
      show plainTree fmtJ Plain.null = PJson.null from by simp [plainTree]]
    exact .null
  | .bool b => by
    rw [show toPJson fmtJ (Plain.bool b) = PJson.bool b from by simp [toPJson],
      show plainTree fmtJ (Plain.bool b) = PJson.bool b from by simp [plainTree]]
    exact .bool b
  | .int i => by
    rw [show toPJson fmtJ (Plain.int i) = PJson.num ⟨formatInt i⟩ from by
        simp [toPJson],
      show plainTree fmtJ (Plain.int i) = PJson.num ⟨formatInt i⟩ from by
        simp [plainTree]]
    exact .num _
  | .float f => by
    rw [show toPJson fmtJ (Plain.float f) = PJson.num (fmtJ f) from by
        simp [toPJson],
      show plainTree fmtJ (Plain.float f) = PJson.num (fmtJ f) from by
        simp [plainTree]]
    exact .num _
  | .str s => by
    rw [show toPJson fmtJ (Plain.str s) = PJson.str s from by simp [toPJson],
      show plainTree fmtJ (Plain.str s) = PJson.str s from by simp [plainTree]]
    exact .str s
  | .arr xs => by
    rw [toPJson_arr, plainTree_arr]
    exact .arr (PEquivList_map (toPJson fmtJ) (plainTree fmtJ) xs
      (fun x hx => PEquiv_toPJson_plainTree fmtJ x))
  | .obj kvs => by
    rw [toPJson_obj, plainTree_obj]
    refine .obj (sortByKey_perm _) ?_
    exact PEquivMembers_map Prod.fst (fun kv => toPJson fmtJ kv.2)
      (fun kv => plainTree fmtJ kv.2) kvs
      (fun kv hkv => PEquiv_toPJson_plainTree fmtJ kv.2)
  termination_by p => sizeOf p
  decreasing_by
  · have h := List.sizeOf_lt_of_mem hx
    simp only [Plain.arr.sizeOf_spec]
    omega
  · have h := List.sizeOf_lt_of_mem hkv
    rcases hkv4 : kv with ⟨k2, v2⟩
    simp only [Plain.obj.sizeOf_spec, Prod.mk.sizeOf_spec, hkv4] at h ⊢
    omega

theorem parseJson_marshalPlain {F : Type} (fmtJ : F → String) (p : Plain F)
    (h : NumsOK (toPJson fmtJ p)) :
    parseJson (marshalPlain fmtJ p) = some (toPJson fmtJ p) := by
  have hser := parseV_ser ((serialize (toPJson fmtJ p)).length + 1)
    (toPJson fmtJ p) h (by have := needV_le (toPJson fmtJ p) h; omega)
    [] True.intro
  rw [List.append_nil] at hser
  show (match parseV ((serialize (toPJson fmtJ p)).length + 1)
      (serialize (toPJson fmtJ p)) with
    | some (j, []) => some j
    | _ => none) = some (toPJson fmtJ p)
  rw [hser]

/-- Counterexample to claim C6 as stated: a NaN float64 is a supported
Firestore double, `json.Marshal` errors on it, and `formatValue` discards
the error (`b, _ := json.Marshal(...)`, src/main.go:216) leaving the cell
empty — which no JSON parser accepts.  The float type is instantiated
with a single value standing for NaN: its JSON encoding fails (`none`)
while `strconv.FormatFloat` would write `NaN`. -/
theorem arrayMapCell_nonfinite_counterexample :
    parseJson (formatValueGo (fun _ : Unit => "NaN") (fun _ : Unit => none)
      (DocValue.array [DocValue.float ()])) = none := by
  have h1 : formatValueGo (fun _ : Unit => "NaN") (fun _ : Unit => none)
      (DocValue.array [DocValue.float ()]) = "" := by
    show marshalGo (fun _ : Unit => none)
      (convertForJSON (DocValue.array [DocValue.float ()])) = ""
    rw [show convertForJSON (DocValue.array [DocValue.float ()]) =
      Plain.arr [Plain.float ()] from by simp [convertForJSON]]
    have hng : ¬(plainFloatsOK (fun _ : Unit => none)
        (Plain.arr [Plain.float ()]) = true) := by
      simp [plainFloatsOK]
    unfold marshalGo
    rw [if_neg hng]
  rw [h1]
  rfl

/-- Claim C6 (corrected): for every Array or Map value on which
`json.Marshal` succeeds — every float in it is encodable, which the
library guarantees exactly for finite float64 values, and successful
encodings are well-formed number tokens — the normalizer's cell output is
valid JSON: a standard JSON parser accepts it, recovering the marshalled
tree, and that tree is structurally equivalent, modulo object key
ordering, to the recursively converted input.  A value holding a
non-finite float instead yields an empty cell: see the counterexample. -/
theorem arrayMapCell_valid_json {F : Type} (fmtF : F → String)
    (fmtJ : F → Option String)
    (hfl : ∀ f s, fmtJ f = some s → numTokOK s = true) (v : DocValue F)
    (hv : (∃ xs, v = .array xs) ∨ (∃ kvs, v = .map kvs))
    (hok : plainFloatsOK fmtJ (convertForJSON v) = true) :
    parseJson (formatValueGo fmtF fmtJ v) =
      some (marshalTree (fun f => (fmtJ f).getD "") v) ∧
    PEquiv (marshalTree (fun f => (fmtJ f).getD "") v)
      (plainTree (fun f => (fmtJ f).getD "") (convertForJSON v)) := by
  have hmain : formatValueGo fmtF fmtJ v = marshalGo fmtJ (convertForJSON v) := by
    rcases hv with ⟨xs, rfl⟩ | ⟨kvs, rfl⟩
    · rfl
    · rfl
  have hgo : marshalGo fmtJ (convertForJSON v) =
      marshalPlain (fun f => (fmtJ f).getD "") (convertForJSON v) := by
    unfold marshalGo
    rw [if_pos hok]
  rw [hmain, hgo]
  constructor
  · exact parseJson_marshalPlain (fun f => (fmtJ f).getD "") (convertForJSON v)
      (NumsOK_toPJson_ok fmtJ hfl (convertForJSON v) hok)
  · exact PEquiv_toPJson_plainTree (fun f => (fmtJ f).getD "") (convertForJSON v)

/-- Witness for C6: the two-key map `\x7b b: 1, a: 2 \x7d` (no floats, so
`Marshal` succeeds) — its cell text parses back to the marshalled tree and
that tree is equivalent to the order-preserving conversion. -/
theorem arrayMapCell_valid_json_witness :
    parseJson (formatValueGo unitFmt unitFmtOpt
      (DocValue.map [("b", DocValue.int 1), ("a", DocValue.int 2)])) =
      some (marshalTree unitFmt
        (DocValue.map [("b", DocValue.int 1), ("a", DocValue.int 2)])) ∧
    PEquiv (marshalTree unitFmt
        (DocValue.map [("b", DocValue.int 1), ("a", DocValue.int 2)]))
      (plainTree unitFmt (convertForJSON
        (DocValue.map [("b", DocValue.int 1), ("a", DocValue.int 2)]))) :=
  arrayMapCell_valid_json unitFmt unitFmtOpt
    (fun f s h => by
      have h2 : s = "0" := (Option.some.inj h).symm
      rw [h2]
      decide)
    (DocValue.map [("b", DocValue.int 1), ("a", DocValue.int 2)])
    (Or.inr ⟨[("b", DocValue.int 1), ("a", DocValue.int 2)], rfl⟩)
    (by simp [convertForJSON, plainFloatsOK])

end F2C
